import Mathlib

/-!
Verification of the in-core J/K contraction kernels and drivers of
`src/lib/vhf/nr_incore_o0.c` (pyscf).

Doubles are modelled by exact rationals (`ℚ`).  A flat C array of doubles is a
function `ℕ → ℚ`.  Every kernel only ever performs `out[cell] += expr` where
`expr` reads `eri` and `dm` but never the output accumulator, so a kernel call
is faithfully represented by the list of `(cell, increment)` pairs it emits, in
program order; `applyUpd` replays such a list against an accumulator.
-/

namespace VHF

/-- A flat array of doubles (modelled exactly, as rationals). -/
abbrev Vec := ℕ → ℚ

/-- One `out[p.1] += p.2` store. -/
def addAt (v : Vec) (p : ℕ × ℚ) : Vec :=
  fun t => if p.1 = t then v t + p.2 else v t

/-- Replay a list of `+=` stores, in order. -/
def applyUpd (v : Vec) (us : List (ℕ × ℚ)) : Vec :=
  us.foldl addAt v

/-- Total increment a list of stores adds to cell `t`. -/
def sumUpd (us : List (ℕ × ℚ)) (t : ℕ) : ℚ :=
  (us.map fun p => if p.1 = t then p.2 else 0).sum

/-- `cat n f = f 0 ++ f 1 ++ ⋯ ++ f (n-1)`: the stores of a C for-loop
`for (i = 0; i < n; i++)` whose body emits `f i`. -/
def cat {A : Type} : ℕ → (ℕ → List A) → List A
  | 0, _ => []
  | n + 1, f => cat n f ++ f n

/-- A pair kernel, as in the C code: receives the (already offset) eri block,
a density matrix, the dimension `nao` and the outer pair `(ic, jc)`, and
produces the accumulator increments of the call. -/
abbrev Kernel := Vec → Vec → ℕ → ℕ → ℕ → List (ℕ × ℚ)

/-- Inverse of the triangular pair enumeration: walks `(0,0), (1,0), (1,1),
(2,0), …` one step per unit of the linear index. -/
def tri_pair : ℕ → ℕ × ℕ
  | 0 => (0, 0)
  | m + 1 =>
    if (tri_pair m).2 < (tri_pair m).1 then ((tri_pair m).1, (tri_pair m).2 + 1)
    else ((tri_pair m).1 + 1, 0)

/-- Row of the linear triangular index (the driver's `i`). -/
def tri_ic (m : ℕ) : ℕ := (tri_pair m).1

/-- Column of the linear triangular index (the driver's `j`). -/
def tri_jc (m : ℕ) : ℕ := (tri_pair m).2

/-- C `CVHFnrs8_ij_s2kl_o0` (nr_incore_o0.c:17-47). -/
def CVHFnrs8_ij_s2kl_o0 (eri dm : Vec) (nao ic jc : ℕ) : List (ℕ × ℚ) :=
  if ic < jc then []
  else
    let dm_ij : ℚ := if jc < ic then dm (ic * nao + jc) + dm (jc * nao + ic)
      else dm (ic * nao + ic)
    (cat ic fun i =>
      (cat i fun j =>
        [(ic * nao + jc, eri (i * (i + 1) / 2 + j) * (dm (i * nao + j) + dm (j * nao + i))),
         (i * nao + j, eri (i * (i + 1) / 2 + j) * dm_ij)]) ++
      [(ic * nao + jc, eri (i * (i + 1) / 2 + i) * dm (i * nao + i)),
       (i * nao + i, eri (i * (i + 1) / 2 + i) * dm_ij)]) ++
    (cat jc fun j =>
      [(ic * nao + jc, eri (ic * (ic + 1) / 2 + j) * (dm (ic * nao + j) + dm (j * nao + ic))),
       (ic * nao + j, eri (ic * (ic + 1) / 2 + j) * dm_ij)]) ++
    [(ic * nao + jc, eri (ic * (ic + 1) / 2 + jc) * dm_ij)]

/-- C `CVHFnrs4_ij_s2kl_o0` (nr_incore_o0.c:49-68). -/
def CVHFnrs4_ij_s2kl_o0 (eri dm : Vec) (nao ic jc : ℕ) : List (ℕ × ℚ) :=
  if ic < jc then []
  else
    let dm_ij : ℚ := if jc < ic then dm (ic * nao + jc) + dm (jc * nao + ic)
      else dm (ic * nao + ic)
    cat nao fun i => cat (i + 1) fun j =>
      [(i * nao + j, eri (i * (i + 1) / 2 + j) * dm_ij)]

/-- C `CVHFnrs2kl_kl_s1ij_o0` (nr_incore_o0.c:70-82). -/
def CVHFnrs2kl_kl_s1ij_o0 (eri dm : Vec) (nao ic jc : ℕ) : List (ℕ × ℚ) :=
  cat nao fun i =>
    (cat i fun j =>
      [(ic * nao + jc, eri (i * (i + 1) / 2 + j) * (dm (i * nao + j) + dm (j * nao + i)))]) ++
    [(ic * nao + jc, eri (i * (i + 1) / 2 + i) * dm (i * nao + i))]

/-! ### K kernels -/

/-- C `CVHFnrs8_jk_s1il_o0` (nr_incore_o0.c:89-149). -/
def CVHFnrs8_jk_s1il_o0 (eri dm : Vec) (nao ic jc : ℕ) : List (ℕ × ℚ) :=
  if jc < ic then
    (cat ic fun k =>
      (cat k fun l =>
        [(jc * nao + l, eri (k * (k + 1) / 2 + l) * dm (ic * nao + k)),
         (ic * nao + l, eri (k * (k + 1) / 2 + l) * dm (jc * nao + k)),
         (jc * nao + k, eri (k * (k + 1) / 2 + l) * dm (ic * nao + l)),
         (ic * nao + k, eri (k * (k + 1) / 2 + l) * dm (jc * nao + l)),
         (l * nao + jc, eri (k * (k + 1) / 2 + l) * dm (k * nao + ic)),
         (k * nao + jc, eri (k * (k + 1) / 2 + l) * dm (l * nao + ic)),
         (l * nao + ic, eri (k * (k + 1) / 2 + l) * dm (k * nao + jc)),
         (k * nao + ic, eri (k * (k + 1) / 2 + l) * dm (l * nao + jc))]) ++
      [(jc * nao + k, eri (k * (k + 1) / 2 + k) * dm (ic * nao + k)),
       (ic * nao + k, eri (k * (k + 1) / 2 + k) * dm (jc * nao + k)),
       (k * nao + jc, eri (k * (k + 1) / 2 + k) * dm (k * nao + ic)),
       (k * nao + ic, eri (k * (k + 1) / 2 + k) * dm (k * nao + jc))]) ++
    (cat jc fun l =>
      [(jc * nao + l, eri (ic * (ic + 1) / 2 + l) * dm (ic * nao + ic)),
       (ic * nao + l, eri (ic * (ic + 1) / 2 + l) * dm (jc * nao + ic)),
       (jc * nao + ic, eri (ic * (ic + 1) / 2 + l) * dm (ic * nao + l)),
       (ic * nao + ic, eri (ic * (ic + 1) / 2 + l) * dm (jc * nao + l)),
       (l * nao + jc, eri (ic * (ic + 1) / 2 + l) * dm (ic * nao + ic)),
       (ic * nao + jc, eri (ic * (ic + 1) / 2 + l) * dm (l * nao + ic)),
       (l * nao + ic, eri (ic * (ic + 1) / 2 + l) * dm (ic * nao + jc)),
       (ic * nao + ic, eri (ic * (ic + 1) / 2 + l) * dm (l * nao + jc))]) ++
    [(jc * nao + jc, eri (ic * (ic + 1) / 2 + jc) * dm (ic * nao + ic)),
     (ic * nao + jc, eri (ic * (ic + 1) / 2 + jc) * dm (jc * nao + ic)),
     (jc * nao + ic, eri (ic * (ic + 1) / 2 + jc) * dm (ic * nao + jc)),
     (ic * nao + ic, eri (ic * (ic + 1) / 2 + jc) * dm (jc * nao + jc))]
  else if ic = jc then
    (cat ic fun k =>
      (cat k fun l =>
        [(ic * nao + l, eri (k * (k + 1) / 2 + l) * dm (ic * nao + k)),
         (ic * nao + k, eri (k * (k + 1) / 2 + l) * dm (ic * nao + l)),
         (l * nao + ic, eri (k * (k + 1) / 2 + l) * dm (k * nao + ic)),
         (k * nao + ic, eri (k * (k + 1) / 2 + l) * dm (l * nao + ic))]) ++
      [(ic * nao + k, eri (k * (k + 1) / 2 + k) * dm (ic * nao + k)),
       (k * nao + ic, eri (k * (k + 1) / 2 + k) * dm (k * nao + ic))]) ++
    (cat ic fun l =>
      [(ic * nao + l, eri (ic * (ic + 1) / 2 + l) * dm (ic * nao + ic)),
       (ic * nao + ic, eri (ic * (ic + 1) / 2 + l) * dm (ic * nao + l)),
       (l * nao + ic, eri (ic * (ic + 1) / 2 + l) * dm (ic * nao + ic)),
       (ic * nao + ic, eri (ic * (ic + 1) / 2 + l) * dm (l * nao + ic))]) ++
    [(ic * nao + ic, eri (ic * (ic + 1) / 2 + ic) * dm (ic * nao + ic))]
  else []

/-- C `CVHFnrs8_jk_s2il_o0` (nr_incore_o0.c:151-251).  The C code walks a
bumping `eri` pointer; at the start of each `k` iteration it sits at offset
`k*(k+1)/2`, so `eri[l]` there is `eri (k*(k+1)/2 + l)`.  In the `ic == jc`
branch the C source manually unrolls the `k` loop by two (iterations
`k = 2m, 2m+1` for `m < ic/2`, then an odd remainder iteration when `ic` is
odd), which is transcribed literally. -/
def CVHFnrs8_jk_s2il_o0 (eri dm : Vec) (nao ic jc : ℕ) : List (ℕ × ℚ) :=
  if jc < ic then
    (cat jc fun k =>
      (cat k fun l =>
        [(jc * nao + l, eri (k * (k + 1) / 2 + l) * dm (ic * nao + k)),
         (jc * nao + k, eri (k * (k + 1) / 2 + l) * dm (ic * nao + l)),
         (ic * nao + l, eri (k * (k + 1) / 2 + l) * dm (jc * nao + k)),
         (ic * nao + k, eri (k * (k + 1) / 2 + l) * dm (jc * nao + l))]) ++
      [(jc * nao + k, eri (k * (k + 1) / 2 + k) * dm (ic * nao + k)),
       (ic * nao + k, eri (k * (k + 1) / 2 + k) * dm (jc * nao + k))]) ++
    (cat jc fun l =>
      [(jc * nao + l, eri (jc * (jc + 1) / 2 + l) * dm (ic * nao + jc)),
       (jc * nao + jc, eri (jc * (jc + 1) / 2 + l) * (dm (ic * nao + l) + dm (l * nao + ic))),
       (ic * nao + l, eri (jc * (jc + 1) / 2 + l) * dm (jc * nao + jc)),
       (ic * nao + jc, eri (jc * (jc + 1) / 2 + l) * dm (jc * nao + l))]) ++
    [(jc * nao + jc, eri (jc * (jc + 1) / 2 + jc) * (dm (ic * nao + jc) + dm (jc * nao + ic))),
     (ic * nao + jc, eri (jc * (jc + 1) / 2 + jc) * dm (jc * nao + jc))] ++
    (cat (ic - (jc + 1)) fun m =>
      (cat jc fun l =>
        [(jc * nao + l, eri ((jc + 1 + m) * (jc + 2 + m) / 2 + l) * dm (ic * nao + (jc + 1 + m))),
         (ic * nao + l, eri ((jc + 1 + m) * (jc + 2 + m) / 2 + l) * dm (jc * nao + (jc + 1 + m))),
         (ic * nao + (jc + 1 + m), eri ((jc + 1 + m) * (jc + 2 + m) / 2 + l) * dm (jc * nao + l)),
         ((jc + 1 + m) * nao + jc, eri ((jc + 1 + m) * (jc + 2 + m) / 2 + l) * dm (l * nao + ic))]) ++
      [(jc * nao + jc, eri ((jc + 1 + m) * (jc + 2 + m) / 2 + jc) *
          (dm (ic * nao + (jc + 1 + m)) + dm ((jc + 1 + m) * nao + ic))),
       (ic * nao + jc, eri ((jc + 1 + m) * (jc + 2 + m) / 2 + jc) * dm (jc * nao + (jc + 1 + m))),
       (ic * nao + (jc + 1 + m), eri ((jc + 1 + m) * (jc + 2 + m) / 2 + jc) * dm (jc * nao + jc)),
       ((jc + 1 + m) * nao + jc, eri ((jc + 1 + m) * (jc + 2 + m) / 2 + jc) * dm (jc * nao + ic))] ++
      (cat ((jc + 1 + m) - (jc + 1)) fun r =>
        [(ic * nao + (jc + 1 + r), eri ((jc + 1 + m) * (jc + 2 + m) / 2 + (jc + 1 + r)) *
            dm (jc * nao + (jc + 1 + m))),
         (ic * nao + (jc + 1 + m), eri ((jc + 1 + m) * (jc + 2 + m) / 2 + (jc + 1 + r)) *
            dm (jc * nao + (jc + 1 + r))),
         ((jc + 1 + r) * nao + jc, eri ((jc + 1 + m) * (jc + 2 + m) / 2 + (jc + 1 + r)) *
            dm ((jc + 1 + m) * nao + ic)),
         ((jc + 1 + m) * nao + jc, eri ((jc + 1 + m) * (jc + 2 + m) / 2 + (jc + 1 + r)) *
            dm ((jc + 1 + r) * nao + ic))]) ++
      [(jc * nao + (jc + 1 + m), eri ((jc + 1 + m) * (jc + 2 + m) / 2 + (jc + 1 + m)) *
          dm (ic * nao + (jc + 1 + m))),
       (ic * nao + (jc + 1 + m), eri ((jc + 1 + m) * (jc + 2 + m) / 2 + (jc + 1 + m)) *
          dm (jc * nao + (jc + 1 + m))),
       ((jc + 1 + m) * nao + jc, eri ((jc + 1 + m) * (jc + 2 + m) / 2 + (jc + 1 + m)) *
          dm ((jc + 1 + m) * nao + ic))]) ++
    (cat jc fun l =>
      [(jc * nao + l, eri (ic * (ic + 1) / 2 + l) * dm (ic * nao + ic)),
       (ic * nao + l, eri (ic * (ic + 1) / 2 + l) * dm (jc * nao + ic)),
       (ic * nao + ic, eri (ic * (ic + 1) / 2 + l) * (dm (jc * nao + l) + dm (l * nao + jc))),
       (ic * nao + jc, eri (ic * (ic + 1) / 2 + l) * dm (l * nao + ic))]) ++
    [(jc * nao + jc, eri (ic * (ic + 1) / 2 + jc) * dm (ic * nao + ic)),
     (ic * nao + jc, eri (ic * (ic + 1) / 2 + jc) * dm (jc * nao + ic)),
     (ic * nao + ic, eri (ic * (ic + 1) / 2 + jc) * dm (jc * nao + jc))]
  else if ic = jc then
    (cat (ic / 2) fun m =>
      (cat (2 * m) fun l =>
        [(ic * nao + l, eri (2 * m * (2 * m + 1) / 2 + l) * dm (ic * nao + 2 * m)),
         (ic * nao + 2 * m, eri (2 * m * (2 * m + 1) / 2 + l) * dm (ic * nao + l)),
         (ic * nao + l, eri ((2 * m + 1) * (2 * m + 2) / 2 + l) * dm (ic * nao + (2 * m + 1))),
         (ic * nao + (2 * m + 1), eri ((2 * m + 1) * (2 * m + 2) / 2 + l) * dm (ic * nao + l))]) ++
      [(ic * nao + 2 * m, eri (2 * m * (2 * m + 1) / 2 + 2 * m) * dm (ic * nao + 2 * m)),
       (ic * nao + 2 * m, eri ((2 * m + 1) * (2 * m + 2) / 2 + 2 * m) * dm (ic * nao + (2 * m + 1))),
       (ic * nao + (2 * m + 1), eri ((2 * m + 1) * (2 * m + 2) / 2 + 2 * m) * dm (ic * nao + 2 * m)),
       (ic * nao + (2 * m + 1), eri ((2 * m + 1) * (2 * m + 2) / 2 + (2 * m + 1)) *
          dm (ic * nao + (2 * m + 1)))]) ++
    (cat (ic % 2) fun r =>
      (cat (2 * (ic / 2) + r) fun l =>
        [(ic * nao + l, eri ((2 * (ic / 2) + r) * (2 * (ic / 2) + r + 1) / 2 + l) *
            dm (ic * nao + (2 * (ic / 2) + r))),
         (ic * nao + (2 * (ic / 2) + r), eri ((2 * (ic / 2) + r) * (2 * (ic / 2) + r + 1) / 2 + l) *
            dm (ic * nao + l))]) ++
      [(ic * nao + (2 * (ic / 2) + r),
        eri ((2 * (ic / 2) + r) * (2 * (ic / 2) + r + 1) / 2 + (2 * (ic / 2) + r)) *
          dm (ic * nao + (2 * (ic / 2) + r)))]) ++
    (cat ic fun l =>
      [(ic * nao + l, eri (ic * (ic + 1) / 2 + l) * dm (ic * nao + ic)),
       (ic * nao + ic, eri (ic * (ic + 1) / 2 + l) * (dm (ic * nao + l) + dm (l * nao + ic)))]) ++
    [(ic * nao + ic, eri (ic * (ic + 1) / 2 + ic) * dm (ic * nao + ic))]
  else []

/-- C `CVHFnrs4_jk_s1il_o0` (nr_incore_o0.c:253-279). -/
def CVHFnrs4_jk_s1il_o0 (eri dm : Vec) (nao ic jc : ℕ) : List (ℕ × ℚ) :=
  if jc < ic then
    cat nao fun k =>
      (cat k fun l =>
        [(jc * nao + l, eri (k * (k + 1) / 2 + l) * dm (ic * nao + k)),
         (jc * nao + k, eri (k * (k + 1) / 2 + l) * dm (ic * nao + l)),
         (ic * nao + l, eri (k * (k + 1) / 2 + l) * dm (jc * nao + k)),
         (ic * nao + k, eri (k * (k + 1) / 2 + l) * dm (jc * nao + l))]) ++
      [(jc * nao + k, eri (k * (k + 1) / 2 + k) * dm (ic * nao + k)),
       (ic * nao + k, eri (k * (k + 1) / 2 + k) * dm (jc * nao + k))]
  else if ic = jc then
    cat nao fun k =>
      (cat k fun l =>
        [(ic * nao + l, eri (k * (k + 1) / 2 + l) * dm (ic * nao + k)),
         (ic * nao + k, eri (k * (k + 1) / 2 + l) * dm (ic * nao + l))]) ++
      [(ic * nao + k, eri (k * (k + 1) / 2 + k) * dm (ic * nao + k))]
  else []

/-- C `CVHFnrs4_il_s1jk_o0` (nr_incore_o0.c:281-285): delegates verbatim. -/
def CVHFnrs4_il_s1jk_o0 (eri dm : Vec) (nao ic jc : ℕ) : List (ℕ × ℚ) :=
  CVHFnrs4_jk_s1il_o0 eri dm nao ic jc

/-- C `CVHFnrs4_jk_s2il_o0` (nr_incore_o0.c:287-340).  The running counter
`kl` equals `k*(k+1)/2 + l` throughout (the third `k` loop resets it
explicitly to `k*(k+1)/2`). -/
def CVHFnrs4_jk_s2il_o0 (eri dm : Vec) (nao ic jc : ℕ) : List (ℕ × ℚ) :=
  if jc < ic then
    (cat (jc + 1) fun k =>
      (cat k fun l =>
        [(jc * nao + l, eri (k * (k + 1) / 2 + l) * dm (ic * nao + k)),
         (jc * nao + k, eri (k * (k + 1) / 2 + l) * dm (ic * nao + l)),
         (ic * nao + l, eri (k * (k + 1) / 2 + l) * dm (jc * nao + k)),
         (ic * nao + k, eri (k * (k + 1) / 2 + l) * dm (jc * nao + l))]) ++
      [(jc * nao + k, eri (k * (k + 1) / 2 + k) * dm (ic * nao + k)),
       (ic * nao + k, eri (k * (k + 1) / 2 + k) * dm (jc * nao + k))]) ++
    (cat (ic - jc) fun m =>
      (cat (jc + 1) fun l =>
        [(jc * nao + l, eri ((jc + 1 + m) * (jc + 2 + m) / 2 + l) * dm (ic * nao + (jc + 1 + m))),
         (ic * nao + l, eri ((jc + 1 + m) * (jc + 2 + m) / 2 + l) * dm (jc * nao + (jc + 1 + m))),
         (ic * nao + (jc + 1 + m), eri ((jc + 1 + m) * (jc + 2 + m) / 2 + l) * dm (jc * nao + l))]) ++
      (cat m fun r =>
        [(ic * nao + (jc + 1 + r), eri ((jc + 1 + m) * (jc + 2 + m) / 2 + (jc + 1 + r)) *
            dm (jc * nao + (jc + 1 + m))),
         (ic * nao + (jc + 1 + m), eri ((jc + 1 + m) * (jc + 2 + m) / 2 + (jc + 1 + r)) *
            dm (jc * nao + (jc + 1 + r)))]) ++
      [(ic * nao + (jc + 1 + m), eri ((jc + 1 + m) * (jc + 2 + m) / 2 + (jc + 1 + m)) *
          dm (jc * nao + (jc + 1 + m)))]) ++
    (cat (nao - (ic + 1)) fun m =>
      (cat (jc + 1) fun l =>
        [(jc * nao + l, eri ((ic + 1 + m) * (ic + 2 + m) / 2 + l) * dm (ic * nao + (ic + 1 + m))),
         (ic * nao + l, eri ((ic + 1 + m) * (ic + 2 + m) / 2 + l) * dm (jc * nao + (ic + 1 + m)))]) ++
      (cat (ic - jc) fun r =>
        [(ic * nao + (jc + 1 + r), eri ((ic + 1 + m) * (ic + 2 + m) / 2 + (jc + 1 + r)) *
            dm (jc * nao + (ic + 1 + m)))]))
  else if ic = jc then
    (cat (ic + 1) fun k =>
      (cat k fun l =>
        [(ic * nao + l, eri (k * (k + 1) / 2 + l) * dm (ic * nao + k)),
         (ic * nao + k, eri (k * (k + 1) / 2 + l) * dm (ic * nao + l))]) ++
      [(ic * nao + k, eri (k * (k + 1) / 2 + k) * dm (ic * nao + k))]) ++
    (cat (nao - (ic + 1)) fun m =>
      cat (ic + 1) fun l =>
        [(ic * nao + l, eri ((ic + 1 + m) * (ic + 2 + m) / 2 + l) * dm (ic * nao + (ic + 1 + m)))])
  else []

/-- C `CVHFnrs4_il_s2jk_o0` (nr_incore_o0.c:342-346): delegates verbatim. -/
def CVHFnrs4_il_s2jk_o0 (eri dm : Vec) (nao ic jc : ℕ) : List (ℕ × ℚ) :=
  CVHFnrs4_jk_s2il_o0 eri dm nao ic jc

/-! ### s1 and s2ij kernels -/

/-- Models the external BLAS `ddot_` call: dot product of `nn` consecutive
doubles of `x` and `y` (both with unit stride). -/
def ddot (nn : ℕ) (x y : Vec) : ℚ := ∑ t ∈ Finset.range nn, x t * y t

/-- C `CVHFnrs1_kl_s1ij` (nr_incore_o0.c:455-461). -/
def CVHFnrs1_kl_s1ij (eri dm : Vec) (nao ic jc : ℕ) : List (ℕ × ℚ) :=
  [(ic * nao + jc, ddot (nao * nao) eri dm)]

/-- C `CVHFnrs2ij_ij_s1kl` (nr_incore_o0.c:482-498). -/
def CVHFnrs2ij_ij_s1kl (eri dm : Vec) (nao ic jc : ℕ) : List (ℕ × ℚ) :=
  if ic < jc then []
  else
    let dm_ij : ℚ := if jc < ic then dm (ic * nao + jc) + dm (jc * nao + ic)
      else dm (ic * nao + ic)
    cat (nao * nao) fun i => [(i, eri i * dm_ij)]

/-- C `CVHFnrs2ij_kl_s2ij` (nr_incore_o0.c:499-506). -/
def CVHFnrs2ij_kl_s2ij (eri dm : Vec) (nao ic jc : ℕ) : List (ℕ × ℚ) :=
  if ic < jc then [] else CVHFnrs1_kl_s1ij eri dm nao ic jc

/-- C `CVHFnrs2ij_jk_s1il` (nr_incore_o0.c:507-525). -/
def CVHFnrs2ij_jk_s1il (eri dm : Vec) (nao ic jc : ℕ) : List (ℕ × ℚ) :=
  if jc < ic then
    cat nao fun k => cat nao fun l =>
      [(jc * nao + l, eri (k * nao + l) * dm (ic * nao + k)),
       (ic * nao + l, eri (k * nao + l) * dm (jc * nao + k))]
  else if ic = jc then
    cat nao fun k => cat nao fun l =>
      [(ic * nao + l, eri (k * nao + l) * dm (ic * nao + k))]
  else []

/-- C `CVHFnrs2ij_il_s1jk` (nr_incore_o0.c:526-544). -/
def CVHFnrs2ij_il_s1jk (eri dm : Vec) (nao ic jc : ℕ) : List (ℕ × ℚ) :=
  if jc < ic then
    cat nao fun k => cat nao fun l =>
      [(jc * nao + k, eri (k * nao + l) * dm (ic * nao + l)),
       (ic * nao + k, eri (k * nao + l) * dm (jc * nao + l))]
  else if ic = jc then
    cat nao fun k => cat nao fun l =>
      [(ic * nao + k, eri (k * nao + l) * dm (ic * nao + l))]
  else []

/-! ### Thin wrappers (nr_incore_o0.c:362-443) -/

/-- C `CVHFnrs8_ij_s2kl` (nr_incore_o0.c:362-366). -/
def CVHFnrs8_ij_s2kl : Kernel := CVHFnrs8_ij_s2kl_o0

/-- C `CVHFnrs8_jk_s1il` (nr_incore_o0.c:389-393). -/
def CVHFnrs8_jk_s1il : Kernel := CVHFnrs8_jk_s1il_o0

/-- C `CVHFnrs8_jk_s2il` (nr_incore_o0.c:398-402). -/
def CVHFnrs8_jk_s2il : Kernel := CVHFnrs8_jk_s2il_o0

/-- C `CVHFnrs4_jk_s1il` (nr_incore_o0.c:409-413). -/
def CVHFnrs4_jk_s1il : Kernel := CVHFnrs4_jk_s1il_o0

/-- C `CVHFnrs4_il_s1jk` (nr_incore_o0.c:414-418): calls `CVHFnrs4_jk_s1il_o0`. -/
def CVHFnrs4_il_s1jk : Kernel := fun eri dm nao ic jc =>
  CVHFnrs4_jk_s1il_o0 eri dm nao ic jc

/-- C `CVHFnrs4_jk_s2il` (nr_incore_o0.c:422-426). -/
def CVHFnrs4_jk_s2il : Kernel := CVHFnrs4_jk_s2il_o0

/-- C `CVHFnrs4_il_s2jk` (nr_incore_o0.c:427-431): calls `CVHFnrs4_jk_s2il_o0`. -/
def CVHFnrs4_il_s2jk : Kernel := fun eri dm nao ic jc =>
  CVHFnrs4_jk_s2il_o0 eri dm nao ic jc

/-- C `CVHFnrs4_ij_s2kl` (nr_incore_o0.c:432-436). -/
def CVHFnrs4_ij_s2kl : Kernel := CVHFnrs4_ij_s2kl_o0

/-- C `CVHFnrs4_kl_s2ij` (nr_incore_o0.c:437-443). -/
def CVHFnrs4_kl_s2ij (eri dm : Vec) (nao ic jc : ℕ) : List (ℕ × ℚ) :=
  if jc ≤ ic then CVHFnrs2kl_kl_s1ij_o0 eri dm nao ic jc else []

/-! ### Drivers (nr_incore_o0.c:598-795)

Each C driver zeroes the caller's `vj`/`vk` (`memset`), then loops over all
outer pair indices, offsetting `eri` and invoking the kernels, and finally
merges the per-thread private accumulators.  Sequentially that is: starting
from the zero accumulator, replay the stores of every `ij` iteration in
order.  `runLoop` does exactly that; order/partition independence of the
OpenMP version is claim C4.  The drivers recover `(i, j)` from the linear
index `ij` via `i = (int)(sqrt(2*ij+.25) - .5 + 1e-7)`, `j = ij - i*(i+1)/2`,
which equals `(tri_ic ij, tri_jc ij)`: that is claim C5. -/

/-- Sequential semantics of one driver loop: replay iterations `0, …, m-1`. -/
def runLoop (m : ℕ) (f : ℕ → List (ℕ × ℚ)) (v : Vec) : Vec := applyUpd v (cat m f)

/-- Loop body of `CVHFnrs8_incore_drv`: offset `eri` by `ij*(ij+1)/2` and call
the kernel on the unfolded pair. -/
def s8step (eri dm : Vec) (n : ℕ) (fv : Kernel) (ij : ℕ) : List (ℕ × ℚ) :=
  fv (fun t => eri (ij * (ij + 1) / 2 + t)) dm n (tri_ic ij) (tri_jc ij)

/-- Loop body of `CVHFnrs4_incore_drv`: offset `eri` by `ij * npair`. -/
def s4step (eri dm : Vec) (n : ℕ) (fv : Kernel) (ij : ℕ) : List (ℕ × ℚ) :=
  fv (fun t => eri (ij * (n * (n + 1) / 2) + t)) dm n (tri_ic ij) (tri_jc ij)

/-- Loop body of `CVHFnrs2ij_incore_drv`: offset `eri` by `ij * n * n`. -/
def s2ijstep (eri dm : Vec) (n : ℕ) (fv : Kernel) (ij : ℕ) : List (ℕ × ℚ) :=
  fv (fun t => eri (ij * n * n + t)) dm n (tri_ic ij) (tri_jc ij)

/-- Loop body of `CVHFnrs2kl_incore_drv`: dense outer index, `i = ij / n`,
`j = ij - i*n`, offset `ij * npair`. -/
def s2klstep (eri dm : Vec) (n : ℕ) (fv : Kernel) (ij : ℕ) : List (ℕ × ℚ) :=
  fv (fun t => eri (ij * (n * (n + 1) / 2) + t)) dm n (ij / n) (ij - ij / n * n)

/-- Loop body of `CVHFnrs1_incore_drv`: dense outer index, offset `ij * n * n`. -/
def s1step (eri dm : Vec) (n : ℕ) (fv : Kernel) (ij : ℕ) : List (ℕ × ℚ) :=
  fv (fun t => eri (ij * n * n + t)) dm n (ij / n) (ij - ij / n * n)

/-- C `CVHFnrs8_incore_drv` (nr_incore_o0.c:598-636).  `vj0`/`vk0` are the
prior contents of the caller's output buffers; the `memset` discards them. -/
def CVHFnrs8_incore_drv (eri dmj : Vec) (vj0 : Vec) (dmk : Vec) (vk0 : Vec)
    (n : ℕ) (fvj fvk : Kernel) : Vec × Vec :=
  (runLoop (n * (n + 1) / 2) (s8step eri dmj n fvj) fun _ => 0,
   runLoop (n * (n + 1) / 2) (s8step eri dmk n fvk) fun _ => 0)

/-- C `CVHFnrs4_incore_drv` (nr_incore_o0.c:638-676). -/
def CVHFnrs4_incore_drv (eri dmj : Vec) (vj0 : Vec) (dmk : Vec) (vk0 : Vec)
    (n : ℕ) (fvj fvk : Kernel) : Vec × Vec :=
  (runLoop (n * (n + 1) / 2) (s4step eri dmj n fvj) fun _ => 0,
   runLoop (n * (n + 1) / 2) (s4step eri dmk n fvk) fun _ => 0)

/-- C `CVHFnrs2ij_incore_drv` (nr_incore_o0.c:678-716). -/
def CVHFnrs2ij_incore_drv (eri dmj : Vec) (vj0 : Vec) (dmk : Vec) (vk0 : Vec)
    (n : ℕ) (fvj fvk : Kernel) : Vec × Vec :=
  (runLoop (n * (n + 1) / 2) (s2ijstep eri dmj n fvj) fun _ => 0,
   runLoop (n * (n + 1) / 2) (s2ijstep eri dmk n fvk) fun _ => 0)

/-- C `CVHFnrs2kl_incore_drv` (nr_incore_o0.c:718-756). -/
def CVHFnrs2kl_incore_drv (eri dmj : Vec) (vj0 : Vec) (dmk : Vec) (vk0 : Vec)
    (n : ℕ) (fvj fvk : Kernel) : Vec × Vec :=
  (runLoop (n * n) (s2klstep eri dmj n fvj) fun _ => 0,
   runLoop (n * n) (s2klstep eri dmk n fvk) fun _ => 0)

/-- C `CVHFnrs1_incore_drv` (nr_incore_o0.c:758-795). -/
def CVHFnrs1_incore_drv (eri dmj : Vec) (vj0 : Vec) (dmk : Vec) (vk0 : Vec)
    (n : ℕ) (fvj fvk : Kernel) : Vec × Vec :=
  (runLoop (n * n) (s1step eri dmj n fvj) fun _ => 0,
   runLoop (n * n) (s1step eri dmk n fvk) fun _ => 0)

/-! ### Dense reference model -/

/-- The eight-fold permutation symmetry of the ERI tensor
(`T[i,j,k,l] = T[j,i,k,l] = T[i,j,l,k] = T[k,l,i,j]`). -/
def S8Symm (T : ℕ → ℕ → ℕ → ℕ → ℚ) : Prop :=
  ∀ i j k l, T i j k l = T j i k l ∧ T i j k l = T i j l k ∧ T i j k l = T k l i j

/-- s8 compact storage of a dense tensor: flat element `ij*(ij+1)/2 + kl`
(for pair indices `kl ≤ ij`) holds the tensor value at the two unfolded
index pairs, i.e. `eri ~ &eri_ao[ij*(ij+1)/2]` per the comment at
nr_incore_o0.c:350-360. -/
def s8pack (T : ℕ → ℕ → ℕ → ℕ → ℚ) : Vec := fun m =>
  T (tri_ic (tri_ic m)) (tri_jc (tri_ic m)) (tri_ic (tri_jc m)) (tri_jc (tri_jc m))

/-- Brute-force dense Coulomb matrix: `vj[i,j] = Σ_{k,l} T[i,j,k,l]·dm[k,l]`. -/
def denseJ (T : ℕ → ℕ → ℕ → ℕ → ℚ) (dm : Vec) (n i j : ℕ) : ℚ :=
  ∑ k ∈ Finset.range n, ∑ l ∈ Finset.range n, T i j k l * dm (k * n + l)

/-- Brute-force dense exchange matrix: `vk[i,l] = Σ_{j,k} T[i,j,k,l]·dm[j,k]`. -/
def denseK (T : ℕ → ℕ → ℕ → ℕ → ℚ) (dm : Vec) (n i l : ℕ) : ℚ :=
  ∑ j ∈ Finset.range n, ∑ k ∈ Finset.range n, T i j k l * dm (j * n + k)

/-- Concatenate the stores of the iterations listed in `c`, in order. -/
def catL : List ℕ → (ℕ → List (ℕ × ℚ)) → List (ℕ × ℚ)
  | [], _ => []
  | i :: c, f => f i ++ catL c f

/-- All indices of a schedule, in schedule order. -/
def joinL (cs : List (List ℕ)) : List ℕ := cs.foldr (· ++ ·) []

/-- Run every worker on its chunk from a zeroed private accumulator, then
sum the private accumulators (the `omp critical` merge). -/
def parRun (chunks : List (List ℕ)) (f : ℕ → List (ℕ × ℚ)) : Vec :=
  fun t => (chunks.map fun c => applyUpd (fun _ => 0) (catL c f) t).sum

/-- The driver's unfolding expression `sqrt(2*ij+.25) - .5 + 1e-7`, over ℝ. -/
noncomputable def drvUnfold (ij : ℕ) : ℝ :=
  Real.sqrt (2 * ij + 0.25) - 0.5 + 1e-7

/-- Builds an s8-symmetric tensor from a value per canonical (sorted)
representative; used for concrete test tensors. -/
def s8ofVec (g : Vec) : ℕ → ℕ → ℕ → ℕ → ℚ := fun i j k l =>
  g (max (max i j * (max i j + 1) / 2 + min i j) (max k l * (max k l + 1) / 2 + min k l) *
      (max (max i j * (max i j + 1) / 2 + min i j) (max k l * (max k l + 1) / 2 + min k l) + 1) / 2 +
     min (max i j * (max i j + 1) / 2 + min i j) (max k l * (max k l + 1) / 2 + min k l))

/-- `kcell n i0 l0 r c x`: the amount `x` if the store at `vk[r,c]` hits the
observed cell `(i0,l0)`, else `0`. -/
def kcell (n i0 l0 r c : ℕ) (x : ℚ) : ℚ :=
  if r * n + c = i0 * n + l0 then x else 0

/-- Contribution of the single stored entry `(a,b,c,d)` (outer pair `(a,b)`,
inner pair `(c,d)`) of a `CVHFnrs8_jk_s1il_o0` call to the observed cell,
written per code branch, in the code's store order. -/
def PhiK (T : ℕ → ℕ → ℕ → ℕ → ℚ) (dm : Vec) (n i0 l0 a b c d : ℕ) : ℚ :=
  if b < a then
    if c = a ∧ d = b then
      T a b c d * (kcell n i0 l0 b b (dm (a * n + a)) + kcell n i0 l0 a b (dm (b * n + a)) +
        kcell n i0 l0 b a (dm (a * n + b)) + kcell n i0 l0 a a (dm (b * n + b)))
    else if d < c then
      T a b c d * (kcell n i0 l0 b d (dm (a * n + c)) + kcell n i0 l0 a d (dm (b * n + c)) +
        kcell n i0 l0 b c (dm (a * n + d)) + kcell n i0 l0 a c (dm (b * n + d)) +
        kcell n i0 l0 d b (dm (c * n + a)) + kcell n i0 l0 c b (dm (d * n + a)) +
        kcell n i0 l0 d a (dm (c * n + b)) + kcell n i0 l0 c a (dm (d * n + b)))
    else
      T a b c d * (kcell n i0 l0 b c (dm (a * n + c)) + kcell n i0 l0 a c (dm (b * n + c)) +
        kcell n i0 l0 c b (dm (c * n + a)) + kcell n i0 l0 c a (dm (c * n + b)))
  else
    if c = a ∧ d = a then T a b c d * kcell n i0 l0 a a (dm (a * n + a))
    else if d < c then
      T a b c d * (kcell n i0 l0 a d (dm (a * n + c)) + kcell n i0 l0 a c (dm (a * n + d)) +
        kcell n i0 l0 d a (dm (c * n + a)) + kcell n i0 l0 c a (dm (d * n + a)))
    else
      T a b c d * (kcell n i0 l0 a c (dm (a * n + c)) + kcell n i0 l0 c a (dm (c * n + a)))

/-- The dense-side orientation sum for a sorted pair of sorted pairs: the
contributions of all (i,j)-orientations of `(a,b)` times (k,l)-orientations
of `(c,d)` of the tensor entry to the observed exchange cell. -/
def ThetaK (T : ℕ → ℕ → ℕ → ℕ → ℚ) (dm : Vec) (n i0 l0 a b c d : ℕ) : ℚ :=
  if b < a then
    if d < c then
      T a b c d * (kcell n i0 l0 a d (dm (b * n + c)) + kcell n i0 l0 a c (dm (b * n + d)) +
        kcell n i0 l0 b d (dm (a * n + c)) + kcell n i0 l0 b c (dm (a * n + d)))
    else
      T a b c d * (kcell n i0 l0 a c (dm (b * n + c)) + kcell n i0 l0 b c (dm (a * n + c)))
  else
    if d < c then
      T a b c d * (kcell n i0 l0 a d (dm (a * n + c)) + kcell n i0 l0 a c (dm (a * n + d)))
    else
      T a b c d * kcell n i0 l0 a c (dm (a * n + c))

/-- A real density matrix is Hermitian when it is symmetric. -/
def HermDM (dm : Vec) (n : ℕ) : Prop :=
  ∀ i j, i < n → j < n → dm (i * n + j) = dm (j * n + i)

/-- Dense (no-symmetry) s1 storage: element `(i,j,k,l)` lives at flat offset
`((i*n+j)*n+k)*n+l`. -/
def s1pack (T : ℕ → ℕ → ℕ → ℕ → ℚ) (n : ℕ) : Vec := fun m =>
  T (m / (n * n * n)) (m / (n * n) % n) (m / n % n) (m % n)

/-- The identity matrix in flat row-major storage. -/
def idMat (n : ℕ) : Vec := fun t => if t / n = t % n then 1 else 0

theorem sumUpd_nil (t : ℕ) : sumUpd [] t = 0 := rfl

theorem sumUpd_cons (p : ℕ × ℚ) (us : List (ℕ × ℚ)) (t : ℕ) :
    sumUpd (p :: us) t = (if p.1 = t then p.2 else 0) + sumUpd us t := by
  simp [sumUpd]

theorem sumUpd_append (us vs : List (ℕ × ℚ)) (t : ℕ) :
    sumUpd (us ++ vs) t = sumUpd us t + sumUpd vs t := by
  simp [sumUpd]

theorem applyUpd_apply (us : List (ℕ × ℚ)) (v : Vec) (t : ℕ) :
    applyUpd v us t = v t + sumUpd us t := by
  induction us generalizing v with
  | nil => simp [applyUpd, sumUpd]
  | cons p us ih =>
      simp only [applyUpd, List.foldl_cons] at *
      rw [ih, sumUpd_cons, addAt]
      by_cases h : p.1 = t <;> simp [h] <;> ring

theorem sumUpd_cat (n : ℕ) (f : ℕ → List (ℕ × ℚ)) (t : ℕ) :
    sumUpd (cat n f) t = ∑ i ∈ Finset.range n, sumUpd (f i) t := by
  induction n with
  | zero => simp [cat, sumUpd]
  | succ n ih => rw [cat, sumUpd_append, ih, Finset.sum_range_succ]

theorem sumUpd_eq_zero (us : List (ℕ × ℚ)) (t : ℕ)
    (h : ∀ p ∈ us, p.1 ≠ t) : sumUpd us t = 0 := by
  induction us with
  | nil => rfl
  | cons p us ih =>
      rw [sumUpd_cons, if_neg (h p (List.mem_cons_self p us)),
        ih fun q hq => h q (List.mem_cons_of_mem p hq), add_zero]

/-! ### Triangular index arithmetic

The compact storage enumerates pairs `(i, j)` with `j ≤ i` by the linear
index `ij = i*(i+1)/2 + j`.  `tri_pair` is the inverse enumeration, defined
by structural recursion so that it computes by `simp`/`decide`. -/

theorem tri_jc_le_tri_ic (m : ℕ) : tri_jc m ≤ tri_ic m := by
  induction m with
  | zero => simp [tri_ic, tri_jc, tri_pair]
  | succ m ih =>
      unfold tri_ic tri_jc at ih ⊢
      rw [tri_pair]
      by_cases h : (tri_pair m).2 < (tri_pair m).1 <;> simp [h] <;> omega

theorem tri_succ (a : ℕ) : a * (a + 1) / 2 + a + 1 = (a + 1) * (a + 1 + 1) / 2 := by
  have h : (a + 1) * (a + 1 + 1) = a * (a + 1) + 2 * (a + 1) := by ring
  rw [h, Nat.add_mul_div_left _ _ (by omega : 0 < 2)]
  omega

theorem pidx_tri_pair (m : ℕ) : tri_ic m * (tri_ic m + 1) / 2 + tri_jc m = m := by
  induction m with
  | zero => simp [tri_ic, tri_jc, tri_pair]
  | succ m ih =>
      have hle := tri_jc_le_tri_ic m
      unfold tri_ic tri_jc at ih hle ⊢
      rw [tri_pair]
      by_cases h : (tri_pair m).2 < (tri_pair m).1
      · simp only [h, if_true]
        omega
      · simp only [h, if_false]
        have hstep := tri_succ (tri_pair m).1
        omega

theorem tri_mono {a c : ℕ} (h : a ≤ c) : a * (a + 1) / 2 ≤ c * (c + 1) / 2 :=
  Nat.div_le_div_right (Nat.mul_le_mul h (by omega))

theorem pidx_lt_tri_succ {a b : ℕ} (h : b ≤ a) :
    a * (a + 1) / 2 + b < (a + 1) * (a + 1 + 1) / 2 := by
  rw [← tri_succ]; omega

/-- The linear triangular index is lexicographically monotone. -/
theorem pidx_lt_pidx {i0 j0 a b : ℕ} (h0 : j0 ≤ i0) (h : b ≤ a) :
    i0 * (i0 + 1) / 2 + j0 < a * (a + 1) / 2 + b ↔
      i0 < a ∨ (i0 = a ∧ j0 < b) := by
  constructor
  · intro hlt
    rcases Nat.lt_trichotomy i0 a with hc | hc | hc
    · exact Or.inl hc
    · right; exact ⟨hc, by subst hc; omega⟩
    · exfalso
      have h1 : a * (a + 1) / 2 + b < (a + 1) * (a + 1 + 1) / 2 := pidx_lt_tri_succ h
      have h2 : (a + 1) * (a + 1 + 1) / 2 ≤ i0 * (i0 + 1) / 2 := by
        have := tri_mono (show a + 1 ≤ i0 by omega)
        simpa using this
      omega
  · intro hor
    rcases hor with hc | ⟨hc, hb⟩
    · have h1 : i0 * (i0 + 1) / 2 + j0 < (i0 + 1) * (i0 + 1 + 1) / 2 := pidx_lt_tri_succ h0
      have h2 : (i0 + 1) * (i0 + 1 + 1) / 2 ≤ a * (a + 1) / 2 := by
        have := tri_mono (show i0 + 1 ≤ a by omega)
        simpa using this
      omega
    · subst hc; omega

theorem tri_pair_pidx {a b : ℕ} (h : b ≤ a) :
    tri_pair (a * (a + 1) / 2 + b) = (a, b) := by
  have h1 := pidx_tri_pair (a * (a + 1) / 2 + b)
  have h2 := tri_jc_le_tri_ic (a * (a + 1) / 2 + b)
  have hac : tri_ic (a * (a + 1) / 2 + b) = a := by
    rcases Nat.lt_trichotomy (tri_ic (a * (a + 1) / 2 + b)) a with hlt | heq | hgt
    · exfalso
      have h3 : tri_ic (a * (a + 1) / 2 + b) * (tri_ic (a * (a + 1) / 2 + b) + 1) / 2 +
          tri_jc (a * (a + 1) / 2 + b) < a * (a + 1) / 2 + b :=
        (pidx_lt_pidx h2 h).mpr (Or.inl hlt)
      omega
    · exact heq
    · exfalso
      have h3 : a * (a + 1) / 2 + b < tri_ic (a * (a + 1) / 2 + b) *
          (tri_ic (a * (a + 1) / 2 + b) + 1) / 2 + tri_jc (a * (a + 1) / 2 + b) :=
        (pidx_lt_pidx h h2).mpr (Or.inl hgt)
      omega
  have hbc : tri_jc (a * (a + 1) / 2 + b) = b := by rw [hac] at h1; omega
  have he : tri_pair (a * (a + 1) / 2 + b) =
      (tri_ic (a * (a + 1) / 2 + b), tri_jc (a * (a + 1) / 2 + b)) := rfl
  rw [he, hac, hbc]

theorem tri_ic_pidx {a b : ℕ} (h : b ≤ a) : tri_ic (a * (a + 1) / 2 + b) = a := by
  unfold tri_ic; rw [tri_pair_pidx h]

theorem tri_jc_pidx {a b : ℕ} (h : b ≤ a) : tri_jc (a * (a + 1) / 2 + b) = b := by
  unfold tri_jc; rw [tri_pair_pidx h]

/-! ### Finset sum plumbing -/

theorem sum_range_block (N M : ℕ) (f : ℕ → ℚ) :
    ∑ p ∈ Finset.range (N + M), f p =
      (∑ p ∈ Finset.range N, f p) + ∑ m ∈ Finset.range M, f (N + m) := by
  induction M with
  | zero => simp
  | succ M ih => rw [← Nat.add_assoc, Finset.sum_range_succ, ih,
      Finset.sum_range_succ, add_assoc]

/-- Prefix sums of the triangular enumeration: summing a function of the
unpacked pair over all linear indices below the pair `(a, b)`. -/
theorem sum_range_tri {a b : ℕ} (h : b ≤ a) (F : ℕ → ℕ → ℚ) :
    ∑ p ∈ Finset.range (a * (a + 1) / 2 + b), F (tri_ic p) (tri_jc p) =
      (∑ i ∈ Finset.range a, ∑ j ∈ Finset.range (i + 1), F i j) +
        ∑ j ∈ Finset.range b, F a j := by
  induction b with
  | zero =>
      simp only [Nat.add_zero, Finset.range_zero, Finset.sum_empty, add_zero]
      induction a with
      | zero => simp
      | succ a iha =>
          have hsplit : (a + 1) * (a + 1 + 1) / 2 = a * (a + 1) / 2 + (a + 1) := by
            have := tri_succ a; omega
          rw [hsplit, sum_range_block, iha (Nat.zero_le a),
            Finset.sum_range_succ (fun i => ∑ j ∈ Finset.range (i + 1), F i j) a]
          congr 1
          refine Finset.sum_congr rfl fun j hj => ?_
          have hj' : j ≤ a := by
            have := Finset.mem_range.mp hj; omega
          rw [tri_ic_pidx hj', tri_jc_pidx hj']
  | succ b ihb =>
      have hb : b ≤ a := by omega
      rw [← Nat.add_assoc, Finset.sum_range_succ, ihb hb,
        tri_ic_pidx hb, tri_jc_pidx hb, Finset.sum_range_succ, add_assoc]

/-- Summing over all `n*(n+1)/2` compact pair indices is summing over the
triangle `j ≤ i < n`. -/
theorem sum_tri (n : ℕ) (F : ℕ → ℕ → ℚ) :
    ∑ p ∈ Finset.range (n * (n + 1) / 2), F (tri_ic p) (tri_jc p) =
      ∑ i ∈ Finset.range n, ∑ j ∈ Finset.range (i + 1), F i j := by
  have h := sum_range_tri (Nat.zero_le n) F
  simpa using h

/-- Folding a dense square double sum onto the triangle. -/
theorem sq_to_tri (n : ℕ) (f : ℕ → ℕ → ℚ) :
    ∑ x ∈ Finset.range n, ∑ y ∈ Finset.range n, f x y =
      ∑ a ∈ Finset.range n, ∑ b ∈ Finset.range (a + 1),
        (if b < a then f a b + f b a else f a a) := by
  induction n with
  | zero => simp
  | succ n ih =>
      have hrow : ∑ x ∈ Finset.range n, ∑ y ∈ Finset.range (n + 1), f x y =
          (∑ x ∈ Finset.range n, ∑ y ∈ Finset.range n, f x y) +
            ∑ x ∈ Finset.range n, f x n := by
        rw [← Finset.sum_add_distrib]
        exact Finset.sum_congr rfl fun x _ => Finset.sum_range_succ (f x) n
      have hlast : ∑ y ∈ Finset.range (n + 1), f n y =
          (∑ y ∈ Finset.range n, f n y) + f n n := Finset.sum_range_succ (f n) n
      have hnewrow : ∑ b ∈ Finset.range (n + 1),
          (if b < n then f n b + f b n else f n n) =
          (∑ b ∈ Finset.range n, (f n b + f b n)) + f n n := by
        rw [Finset.sum_range_succ, if_neg (lt_irrefl n)]
        congr 1
        exact Finset.sum_congr rfl fun b hb => if_pos (Finset.mem_range.mp hb)
      rw [Finset.sum_range_succ, hrow, hlast, Finset.sum_range_succ, ih, hnewrow,
        Finset.sum_add_distrib]
      ring

/-- Decoding a flat `n×n` cell index: rows and columns below `n` are unique. -/
theorem cell_inj {i j i0 j0 n : ℕ} (hj : j < n) (hj0 : j0 < n)
    (h : i * n + j = i0 * n + j0) : i = i0 ∧ j = j0 := by
  have hi : (i * n + j) / n = i := by
    rw [mul_comm, Nat.mul_add_div (by omega : 0 < n), Nat.div_eq_of_lt hj, Nat.add_zero]
  have hi0 : (i0 * n + j0) / n = i0 := by
    rw [mul_comm, Nat.mul_add_div (by omega : 0 < n), Nat.div_eq_of_lt hj0, Nat.add_zero]
  have hii : i = i0 := by rw [← hi, ← hi0, h]
  refine ⟨hii, ?_⟩
  subst hii
  omega

/-! ### J kernels (nr_incore_o0.c)

In every kernel below the C running counters `ij`, `kl` always equal
`i*(i+1)/2 + j` resp. `k*(k+1)/2 + l` at the points where they are used, so
the eri subscripts are written in that closed form. -/

theorem s8pack_read (T : ℕ → ℕ → ℕ → ℕ → ℚ) {P p : ℕ} (h : p ≤ P) :
    s8pack T (P * (P + 1) / 2 + p) =
      T (tri_ic P) (tri_jc P) (tri_ic p) (tri_jc p) := by
  unfold s8pack
  rw [tri_ic_pidx h, tri_jc_pidx h]

theorem s8pack_read4 (T : ℕ → ℕ → ℕ → ℕ → ℚ) {a b c d : ℕ} (hb : b ≤ a) (hd : d ≤ c)
    (h : c * (c + 1) / 2 + d ≤ a * (a + 1) / 2 + b) :
    s8pack T ((a * (a + 1) / 2 + b) * (a * (a + 1) / 2 + b + 1) / 2 +
      (c * (c + 1) / 2 + d)) = T a b c d := by
  rw [s8pack_read T h, tri_ic_pidx hb, tri_jc_pidx hb, tri_ic_pidx hd, tri_jc_pidx hd]

/-! ### Worker partitions (claim C4 model)

The OpenMP loop hands each worker a set of outer-pair indices; every worker
accumulates into its own zeroed private buffer and the buffers are finally
summed (nr_incore_o0.c:610-635).  A schedule is a list of chunks. -/

theorem catL_append (xs ys : List ℕ) (f : ℕ → List (ℕ × ℚ)) :
    catL (xs ++ ys) f = catL xs f ++ catL ys f := by
  induction xs with
  | nil => rfl
  | cons i xs ih => simp [catL, ih]

theorem cat_eq_catL (m : ℕ) (f : ℕ → List (ℕ × ℚ)) :
    cat m f = catL (List.range m) f := by
  induction m with
  | zero => rfl
  | succ m ih => rw [cat, List.range_succ, catL_append, ih]; simp [catL]

theorem sumUpd_catL (c : List ℕ) (f : ℕ → List (ℕ × ℚ)) (t : ℕ) :
    sumUpd (catL c f) t = (c.map fun i => sumUpd (f i) t).sum := by
  induction c with
  | nil => rfl
  | cons i c ih => rw [catL, sumUpd_append, ih, List.map_cons, List.sum_cons]

theorem parRun_apply (chunks : List (List ℕ)) (f : ℕ → List (ℕ × ℚ)) (t : ℕ) :
    parRun chunks f t = ((joinL chunks).map fun i => sumUpd (f i) t).sum := by
  unfold parRun joinL
  induction chunks with
  | nil => simp
  | cons c cs ih =>
      simp only [List.map_cons, List.sum_cons, List.foldr_cons]
      rw [ih, applyUpd_apply, sumUpd_catL]
      simp [List.map_append]

theorem runLoop_apply (m : ℕ) (f : ℕ → List (ℕ × ℚ)) (v : Vec) (t : ℕ) :
    runLoop m f v t = v t + ∑ ij ∈ Finset.range m, sumUpd (f ij) t := by
  rw [runLoop, applyUpd_apply, sumUpd_cat]

/-- Any schedule whose chunks enumerate the index range (in any order, with
any partition) produces the sequential result. -/
theorem parRun_eq_runLoop (chunks : List (List ℕ)) (m : ℕ)
    (f : ℕ → List (ℕ × ℚ)) (hperm : List.Perm (joinL chunks) (List.range m)) :
    parRun chunks f = runLoop m f fun _ => 0 := by
  funext t
  rw [parRun_apply, runLoop, applyUpd_apply, cat_eq_catL, sumUpd_catL]
  have h := (hperm.map fun i => sumUpd (f i) t).sum_eq
  simpa using h

/-! ### Claims C4, C6, C7, C8, C10 -/

/-- C4: over exact arithmetic, for every incore driver and every pair of
kernels, the final `vj` and `vk` are independent of the order in which
outer-pair indices are visited and of the partition into per-worker private
accumulators that are later summed: every schedule whose chunks enumerate
the driver's index range yields the sequential driver result. -/
theorem claim_C4 (eri dmj dmk vj0 vk0 : Vec) (n : ℕ) (fvj fvk : Kernel)
    (chunks : List (List ℕ)) :
    (List.Perm (joinL chunks) (List.range (n * (n + 1) / 2)) →
      parRun chunks (s8step eri dmj n fvj) =
          (CVHFnrs8_incore_drv eri dmj vj0 dmk vk0 n fvj fvk).1 ∧
        parRun chunks (s8step eri dmk n fvk) =
          (CVHFnrs8_incore_drv eri dmj vj0 dmk vk0 n fvj fvk).2 ∧
        parRun chunks (s4step eri dmj n fvj) =
          (CVHFnrs4_incore_drv eri dmj vj0 dmk vk0 n fvj fvk).1 ∧
        parRun chunks (s4step eri dmk n fvk) =
          (CVHFnrs4_incore_drv eri dmj vj0 dmk vk0 n fvj fvk).2 ∧
        parRun chunks (s2ijstep eri dmj n fvj) =
          (CVHFnrs2ij_incore_drv eri dmj vj0 dmk vk0 n fvj fvk).1 ∧
        parRun chunks (s2ijstep eri dmk n fvk) =
          (CVHFnrs2ij_incore_drv eri dmj vj0 dmk vk0 n fvj fvk).2) ∧
    (List.Perm (joinL chunks) (List.range (n * n)) →
      parRun chunks (s2klstep eri dmj n fvj) =
          (CVHFnrs2kl_incore_drv eri dmj vj0 dmk vk0 n fvj fvk).1 ∧
        parRun chunks (s2klstep eri dmk n fvk) =
          (CVHFnrs2kl_incore_drv eri dmj vj0 dmk vk0 n fvj fvk).2 ∧
        parRun chunks (s1step eri dmj n fvj) =
          (CVHFnrs1_incore_drv eri dmj vj0 dmk vk0 n fvj fvk).1 ∧
        parRun chunks (s1step eri dmk n fvk) =
          (CVHFnrs1_incore_drv eri dmj vj0 dmk vk0 n fvj fvk).2) := by
  constructor
  · intro h
    exact ⟨parRun_eq_runLoop _ _ _ h, parRun_eq_runLoop _ _ _ h,
      parRun_eq_runLoop _ _ _ h, parRun_eq_runLoop _ _ _ h,
      parRun_eq_runLoop _ _ _ h, parRun_eq_runLoop _ _ _ h⟩
  · intro h
    exact ⟨parRun_eq_runLoop _ _ _ h, parRun_eq_runLoop _ _ _ h,
      parRun_eq_runLoop _ _ _ h, parRun_eq_runLoop _ _ _ h⟩

/-- Witness for C4 at a concrete schedule: `n = 2`, pairs `{0,1,2}` split
into chunks `[2,0]` and `[1]` (out of order), and the dense range `{0,…,3}`
split into `[3,1]` and `[2,0]`. -/
theorem claim_C4_witness :
    (List.Perm (joinL [[2, 0], [1]]) (List.range (2 * (2 + 1) / 2)) →
      parRun [[2, 0], [1]] (s8step (fun _ => 1) (fun _ => 1) 2 CVHFnrs8_ij_s2kl) =
          (CVHFnrs8_incore_drv (fun _ => 1) (fun _ => 1) (fun _ => 0) (fun _ => 1)
            (fun _ => 0) 2 CVHFnrs8_ij_s2kl CVHFnrs8_jk_s1il).1 ∧
        parRun [[2, 0], [1]] (s8step (fun _ => 1) (fun _ => 1) 2 CVHFnrs8_jk_s1il) =
          (CVHFnrs8_incore_drv (fun _ => 1) (fun _ => 1) (fun _ => 0) (fun _ => 1)
            (fun _ => 0) 2 CVHFnrs8_ij_s2kl CVHFnrs8_jk_s1il).2 ∧
        parRun [[2, 0], [1]] (s4step (fun _ => 1) (fun _ => 1) 2 CVHFnrs8_ij_s2kl) =
          (CVHFnrs4_incore_drv (fun _ => 1) (fun _ => 1) (fun _ => 0) (fun _ => 1)
            (fun _ => 0) 2 CVHFnrs8_ij_s2kl CVHFnrs8_jk_s1il).1 ∧
        parRun [[2, 0], [1]] (s4step (fun _ => 1) (fun _ => 1) 2 CVHFnrs8_jk_s1il) =
          (CVHFnrs4_incore_drv (fun _ => 1) (fun _ => 1) (fun _ => 0) (fun _ => 1)
            (fun _ => 0) 2 CVHFnrs8_ij_s2kl CVHFnrs8_jk_s1il).2 ∧
        parRun [[2, 0], [1]] (s2ijstep (fun _ => 1) (fun _ => 1) 2 CVHFnrs8_ij_s2kl) =
          (CVHFnrs2ij_incore_drv (fun _ => 1) (fun _ => 1) (fun _ => 0) (fun _ => 1)
            (fun _ => 0) 2 CVHFnrs8_ij_s2kl CVHFnrs8_jk_s1il).1 ∧
        parRun [[2, 0], [1]] (s2ijstep (fun _ => 1) (fun _ => 1) 2 CVHFnrs8_jk_s1il) =
          (CVHFnrs2ij_incore_drv (fun _ => 1) (fun _ => 1) (fun _ => 0) (fun _ => 1)
            (fun _ => 0) 2 CVHFnrs8_ij_s2kl CVHFnrs8_jk_s1il).2) ∧
    ((List.Perm (joinL [[2, 0], [1]]) (List.range (2 * 2)) →
      parRun [[2, 0], [1]] (s2klstep (fun _ => 1) (fun _ => 1) 2 CVHFnrs8_ij_s2kl) =
          (CVHFnrs2kl_incore_drv (fun _ => 1) (fun _ => 1) (fun _ => 0) (fun _ => 1)
            (fun _ => 0) 2 CVHFnrs8_ij_s2kl CVHFnrs8_jk_s1il).1 ∧
        parRun [[2, 0], [1]] (s2klstep (fun _ => 1) (fun _ => 1) 2 CVHFnrs8_jk_s1il) =
          (CVHFnrs2kl_incore_drv (fun _ => 1) (fun _ => 1) (fun _ => 0) (fun _ => 1)
            (fun _ => 0) 2 CVHFnrs8_ij_s2kl CVHFnrs8_jk_s1il).2 ∧
        parRun [[2, 0], [1]] (s1step (fun _ => 1) (fun _ => 1) 2 CVHFnrs8_ij_s2kl) =
          (CVHFnrs1_incore_drv (fun _ => 1) (fun _ => 1) (fun _ => 0) (fun _ => 1)
            (fun _ => 0) 2 CVHFnrs8_ij_s2kl CVHFnrs8_jk_s1il).1 ∧
        parRun [[2, 0], [1]] (s1step (fun _ => 1) (fun _ => 1) 2 CVHFnrs8_jk_s1il) =
          (CVHFnrs1_incore_drv (fun _ => 1) (fun _ => 1) (fun _ => 0) (fun _ => 1)
            (fun _ => 0) 2 CVHFnrs8_ij_s2kl CVHFnrs8_jk_s1il).2) ∧
      List.Perm (joinL [[2, 0], [1]]) (List.range (2 * (2 + 1) / 2))) :=
  ⟨(claim_C4 (fun _ => 1) (fun _ => 1) (fun _ => 1) (fun _ => 0) (fun _ => 0) 2
      CVHFnrs8_ij_s2kl CVHFnrs8_jk_s1il [[2, 0], [1]]).1,
   (claim_C4 (fun _ => 1) (fun _ => 1) (fun _ => 1) (fun _ => 0) (fun _ => 0) 2
      CVHFnrs8_ij_s2kl CVHFnrs8_jk_s1il [[2, 0], [1]]).2,
   by simp [joinL]; decide⟩

/-- C6: every kernel over a triangular outer-pair class that branches on the
outer pair is a no-op when called with `ic < jc`: the accumulator is left
entirely unchanged. -/
theorem claim_C6 (eri dm v : Vec) (n ic jc : ℕ) (h : ic < jc) :
    applyUpd v (CVHFnrs8_ij_s2kl_o0 eri dm n ic jc) = v ∧
    applyUpd v (CVHFnrs4_ij_s2kl_o0 eri dm n ic jc) = v ∧
    applyUpd v (CVHFnrs8_jk_s1il_o0 eri dm n ic jc) = v ∧
    applyUpd v (CVHFnrs8_jk_s2il_o0 eri dm n ic jc) = v ∧
    applyUpd v (CVHFnrs4_jk_s1il_o0 eri dm n ic jc) = v ∧
    applyUpd v (CVHFnrs4_jk_s2il_o0 eri dm n ic jc) = v ∧
    applyUpd v (CVHFnrs2ij_ij_s1kl eri dm n ic jc) = v ∧
    applyUpd v (CVHFnrs2ij_jk_s1il eri dm n ic jc) = v ∧
    applyUpd v (CVHFnrs2ij_il_s1jk eri dm n ic jc) = v ∧
    applyUpd v (CVHFnrs2ij_kl_s2ij eri dm n ic jc) = v ∧
    applyUpd v (CVHFnrs4_kl_s2ij eri dm n ic jc) = v := by
  have h1 : ¬ jc < ic := by omega
  have h2 : ¬ ic = jc := by omega
  have h3 : ¬ jc ≤ ic := by omega
  refine ⟨?_, ?_, ?_, ?_, ?_, ?_, ?_, ?_, ?_, ?_, ?_⟩ <;>
    simp [CVHFnrs8_ij_s2kl_o0, CVHFnrs4_ij_s2kl_o0, CVHFnrs8_jk_s1il_o0,
      CVHFnrs8_jk_s2il_o0, CVHFnrs4_jk_s1il_o0, CVHFnrs4_jk_s2il_o0,
      CVHFnrs2ij_ij_s1kl, CVHFnrs2ij_jk_s1il, CVHFnrs2ij_il_s1jk,
      CVHFnrs2ij_kl_s2ij, CVHFnrs4_kl_s2ij, h, h1, h2, h3, applyUpd]

/-- Witness for C6 at `ic = 0 < 1 = jc`, `n = 2`. -/
theorem claim_C6_witness :
    applyUpd (fun _ => 1) (CVHFnrs8_ij_s2kl_o0 (fun _ => 1) (fun _ => 1) 2 0 1) =
        (fun _ => 1) ∧
    applyUpd (fun _ => 1) (CVHFnrs4_ij_s2kl_o0 (fun _ => 1) (fun _ => 1) 2 0 1) =
        (fun _ => 1) ∧
    applyUpd (fun _ => 1) (CVHFnrs8_jk_s1il_o0 (fun _ => 1) (fun _ => 1) 2 0 1) =
        (fun _ => 1) ∧
    applyUpd (fun _ => 1) (CVHFnrs8_jk_s2il_o0 (fun _ => 1) (fun _ => 1) 2 0 1) =
        (fun _ => 1) ∧
    applyUpd (fun _ => 1) (CVHFnrs4_jk_s1il_o0 (fun _ => 1) (fun _ => 1) 2 0 1) =
        (fun _ => 1) ∧
    applyUpd (fun _ => 1) (CVHFnrs4_jk_s2il_o0 (fun _ => 1) (fun _ => 1) 2 0 1) =
        (fun _ => 1) ∧
    applyUpd (fun _ => 1) (CVHFnrs2ij_ij_s1kl (fun _ => 1) (fun _ => 1) 2 0 1) =
        (fun _ => 1) ∧
    applyUpd (fun _ => 1) (CVHFnrs2ij_jk_s1il (fun _ => 1) (fun _ => 1) 2 0 1) =
        (fun _ => 1) ∧
    applyUpd (fun _ => 1) (CVHFnrs2ij_il_s1jk (fun _ => 1) (fun _ => 1) 2 0 1) =
        (fun _ => 1) ∧
    applyUpd (fun _ => 1) (CVHFnrs2ij_kl_s2ij (fun _ => 1) (fun _ => 1) 2 0 1) =
        (fun _ => 1) ∧
    applyUpd (fun _ => 1) (CVHFnrs4_kl_s2ij (fun _ => 1) (fun _ => 1) 2 0 1) =
        (fun _ => 1) :=
  claim_C6 (fun _ => 1) (fun _ => 1) (fun _ => 1) 2 0 1 (by omega)

/-- C7: the alias kernels are extensionally equal to their targets — they
emit identical accumulator updates and hence identical accumulators. -/
theorem claim_C7 (eri dm vk : Vec) (n ic jc : ℕ) :
    (CVHFnrs4_il_s1jk eri dm n ic jc = CVHFnrs4_jk_s1il eri dm n ic jc ∧
      applyUpd vk (CVHFnrs4_il_s1jk eri dm n ic jc) =
        applyUpd vk (CVHFnrs4_jk_s1il eri dm n ic jc)) ∧
    (CVHFnrs4_il_s2jk eri dm n ic jc = CVHFnrs4_jk_s2il eri dm n ic jc ∧
      applyUpd vk (CVHFnrs4_il_s2jk eri dm n ic jc) =
        applyUpd vk (CVHFnrs4_jk_s2il eri dm n ic jc)) :=
  ⟨⟨rfl, rfl⟩, ⟨rfl, rfl⟩⟩

/-- C8: every incore driver's result is independent of the prior contents of
the caller-supplied `vj`/`vk` buffers (they are zeroed by the `memset` at the
start of the call). -/
theorem claim_C8 (eri dmj dmk vj0 vk0 vj1 vk1 : Vec) (n : ℕ) (fvj fvk : Kernel) :
    CVHFnrs8_incore_drv eri dmj vj0 dmk vk0 n fvj fvk =
        CVHFnrs8_incore_drv eri dmj vj1 dmk vk1 n fvj fvk ∧
    CVHFnrs4_incore_drv eri dmj vj0 dmk vk0 n fvj fvk =
        CVHFnrs4_incore_drv eri dmj vj1 dmk vk1 n fvj fvk ∧
    CVHFnrs2ij_incore_drv eri dmj vj0 dmk vk0 n fvj fvk =
        CVHFnrs2ij_incore_drv eri dmj vj1 dmk vk1 n fvj fvk ∧
    CVHFnrs2kl_incore_drv eri dmj vj0 dmk vk0 n fvj fvk =
        CVHFnrs2kl_incore_drv eri dmj vj1 dmk vk1 n fvj fvk ∧
    CVHFnrs1_incore_drv eri dmj vj0 dmk vk0 n fvj fvk =
        CVHFnrs1_incore_drv eri dmj vj1 dmk vk1 n fvj fvk :=
  ⟨rfl, rfl, rfl, rfl, rfl⟩

theorem mem_cat {A : Type} {p : A} {m : ℕ} {f : ℕ → List A} :
    p ∈ cat m f ↔ ∃ i, i < m ∧ p ∈ f i := by
  induction m with
  | zero => simp [cat]
  | succ m ih =>
      simp only [cat, List.mem_append, ih]
      constructor
      · rintro (⟨i, hi, hp⟩ | hp)
        · exact ⟨i, by omega, hp⟩
        · exact ⟨m, by omega, hp⟩
      · rintro ⟨i, hi, hp⟩
        rcases Nat.lt_or_ge i m with h | h
        · exact Or.inl ⟨i, h, hp⟩
        · have : i = m := by omega
          subst this
          exact Or.inr hp

theorem cell_ne {r c a b n : ℕ} (hc : c < n) (hb : b < n)
    (h : ¬(r = a ∧ c = b)) : r * n + c ≠ a * n + b := by
  intro he
  exact h (cell_inj hc hb he)

/-- C10: a single `CVHFnrs8_jk_s1il_o0` call only modifies entries `vk[a,b]`
with `a ∈ {ic,jc}` or `b ∈ {ic,jc}`; every cell whose row and column both
differ from `ic` and `jc` is untouched. -/
theorem claim_C10 (eri dm vk : Vec) (n ic jc a b : ℕ)
    (hic : ic < n) (hjc : jc < n) (ha : a < n) (hb : b < n)
    (hai : a ≠ ic) (haj : a ≠ jc) (hbi : b ≠ ic) (hbj : b ≠ jc) :
    applyUpd vk (CVHFnrs8_jk_s1il_o0 eri dm n ic jc) (a * n + b) = vk (a * n + b) := by
  rw [applyUpd_apply]
  have hz : sumUpd (CVHFnrs8_jk_s1il_o0 eri dm n ic jc) (a * n + b) = 0 := by
    apply sumUpd_eq_zero
    intro p hp
    unfold CVHFnrs8_jk_s1il_o0 at hp
    by_cases h1 : jc < ic
    · rw [if_pos h1] at hp
      simp only [List.mem_append, mem_cat, List.mem_cons, List.mem_singleton,
        List.not_mem_nil, or_false] at hp
      rcases hp with ((⟨k, hk, hp⟩ | ⟨l, hl, hp⟩) | hp)
      · rcases hp with (⟨l, hl, hp⟩ | hp)
        · rcases hp with h | h | h | h | h | h | h | h <;> subst h <;>
            exact cell_ne (by omega) hb (by omega)
        · rcases hp with h | h | h | h <;> subst h <;>
            exact cell_ne (by omega) hb (by omega)
      · rcases hp with h | h | h | h | h | h | h | h <;> subst h <;>
          exact cell_ne (by omega) hb (by omega)
      · rcases hp with h | h | h | h <;> subst h <;>
          exact cell_ne (by omega) hb (by omega)
    · rw [if_neg h1] at hp
      by_cases h2 : ic = jc
      · rw [if_pos h2] at hp
        simp only [List.mem_append, mem_cat, List.mem_cons, List.mem_singleton,
          List.not_mem_nil, or_false] at hp
        rcases hp with ((⟨k, hk, hp⟩ | ⟨l, hl, hp⟩) | hp)
        · rcases hp with (⟨l, hl, hp⟩ | hp)
          · rcases hp with h | h | h | h <;> subst h <;>
              exact cell_ne (by omega) hb (by omega)
          · rcases hp with h | h <;> subst h <;>
              exact cell_ne (by omega) hb (by omega)
        · rcases hp with h | h | h | h <;> subst h <;>
            exact cell_ne (by omega) hb (by omega)
        · subst hp
          exact cell_ne (by omega) hb (by omega)
      · rw [if_neg h2] at hp
        simp at hp
  rw [hz, add_zero]

/-- Witness for C10: `n = 3`, `ic = 1`, `jc = 0`, cell `(2,2)`. -/
theorem claim_C10_witness :
    applyUpd (fun _ => 1) (CVHFnrs8_jk_s1il_o0 (fun _ => 1) (fun _ => 1) 3 1 0)
        (2 * 3 + 2) = (fun _ => (1 : ℚ)) (2 * 3 + 2) :=
  claim_C10 (fun _ => 1) (fun _ => 1) (fun _ => 1) 3 1 0 2 2
    (by omega) (by omega) (by omega) (by omega)
    (by omega) (by omega) (by omega) (by omega)

/-! ### Claim C5: the driver's square-root index unfolding

The C drivers compute `i = (int)(sqrt(2*ij+.25) - .5 + 1e-7)` and
`j = ij - i*(i+1)/2` (nr_incore_o0.c:620-621).  The square root is modelled
over the exact reals; the claim is that the truncation recovers exactly the
triangular unpairing `tri_ic`/`tri_jc` used in the driver embedding. -/

/-- C5: for every linear compact index `ij < n*(n+1)/2` with `n` within
safe magnitudes (`n ≤ 10^6`), truncating the driver's square-root expression
yields `tri_ic ij`, and `jc = ij - ic*(ic+1)/2` recovers the unique
triangular pair: `ic*(ic+1)/2 + jc = ij` with `0 ≤ jc ≤ ic < n`. -/
theorem claim_C5 (n ij : ℕ) (hij : ij < n * (n + 1) / 2) (hn : n ≤ 10 ^ 6) :
    ⌊drvUnfold ij⌋ = (tri_ic ij : ℤ) ∧
      ij - tri_ic ij * (tri_ic ij + 1) / 2 = tri_jc ij ∧
      tri_ic ij * (tri_ic ij + 1) / 2 + tri_jc ij = ij ∧
      tri_jc ij ≤ tri_ic ij ∧ tri_ic ij < n := by
  have hpidx := pidx_tri_pair ij
  have hle := tri_jc_le_tri_ic ij
  set t := tri_ic ij with ht
  set j := tri_jc ij with hj
  have htn : t < n := by
    have h0 : n * (n + 1) / 2 = n * (n + 1) / 2 + 0 := by omega
    have hlt : t * (t + 1) / 2 + j < n * (n + 1) / 2 + 0 := by omega
    have := (pidx_lt_pidx hle (Nat.zero_le n)).mp hlt
    omega
  have hdvd : 2 * (t * (t + 1) / 2) = t * (t + 1) :=
    Nat.mul_div_cancel' (Nat.even_mul_succ_self t).two_dvd
  have h2low : t * (t + 1) ≤ 2 * ij := by omega
  have h2high : 2 * ij ≤ t * t + 3 * t := by
    have : t * (t + 1) + 2 * j = 2 * ij := by omega
    nlinarith
  have hcast_low : ((t : ℝ) * (t + 1)) ≤ 2 * (ij : ℝ) := by
    have := h2low
    push_cast
    exact_mod_cast Nat.cast_le.mpr this
  have hcast_high : 2 * (ij : ℝ) ≤ (t : ℝ) * t + 3 * t := by
    exact_mod_cast Nat.cast_le.mpr h2high
  have ht6 : (t : ℝ) ≤ 999999 := by
    have : t ≤ 999999 := by omega
    exact_mod_cast Nat.cast_le.mpr this
  have ht0 : (0 : ℝ) ≤ (t : ℝ) := Nat.cast_nonneg t
  have hq : (0.25 : ℝ) = 1 / 4 := by norm_num
  have hh : (0.5 : ℝ) = 1 / 2 := by norm_num
  have he : (1e-7 : ℝ) = 1 / 10000000 := by norm_num
  have hsq_low : (t : ℝ) + 0.5 ≤ Real.sqrt (2 * ij + 0.25) := by
    apply Real.le_sqrt_of_sq_le
    rw [hq]
    nlinarith
  have hsq_high : Real.sqrt (2 * ij + 0.25) < (t : ℝ) + 1.5 - 1e-7 := by
    rw [Real.sqrt_lt' (by rw [he]; norm_num; nlinarith)]
    rw [hq, he]
    nlinarith
  have hfloor : ⌊drvUnfold ij⌋ = (t : ℤ) := by
    rw [Int.floor_eq_iff]
    constructor
    · unfold drvUnfold
      rw [hh, he]
      push_cast
      nlinarith
    · unfold drvUnfold
      rw [hh, he]
      push_cast
      nlinarith
  exact ⟨hfloor, by omega, hpidx, hle, htn⟩

/-- Witness for C5 at `n = 1`, `ij = 0`. -/
theorem claim_C5_witness :
    (0 < 1 * (1 + 1) / 2 ∧ 1 ≤ 10 ^ 6) ∧
      (⌊drvUnfold 0⌋ = (tri_ic 0 : ℤ) ∧
        0 - tri_ic 0 * (tri_ic 0 + 1) / 2 = tri_jc 0 ∧
        tri_ic 0 * (tri_ic 0 + 1) / 2 + tri_jc 0 = 0 ∧
        tri_jc 0 ≤ tri_ic 0 ∧ tri_ic 0 < 1) :=
  ⟨by norm_num, claim_C5 1 0 (by norm_num) (by norm_num)⟩

/-! ### Indicator-sum helpers -/

theorem ite_and_q {p q : Prop} [Decidable p] [Decidable q] (x : ℚ) :
    (if p ∧ q then x else 0) = if p then (if q then x else 0) else 0 := by
  by_cases hp : p <;> by_cases hq : q <;> simp [hp, hq]

theorem sum_ite_eq_range (m j0 : ℕ) (f : ℕ → ℚ) :
    ∑ j ∈ Finset.range m, (if j = j0 then f j else 0) =
      if j0 < m then f j0 else 0 := by
  rw [Finset.sum_ite_eq' (Finset.range m) j0 f]
  simp [Finset.mem_range]

theorem cell_ite {i j i0 j0 n : ℕ} (hj : j < n) (hj0 : j0 < n) (X : ℚ) :
    (if i * n + j = i0 * n + j0 then X else 0) =
      if i = i0 ∧ j = j0 then X else 0 := by
  refine if_congr ⟨fun h => cell_inj hj hj0 h, fun h => ?_⟩ rfl rfl
  rw [h.1, h.2]

theorem pidx_le_pidx {i j a b : ℕ} (hj : j ≤ i) (hb : b ≤ a)
    (h : i < a ∨ (i = a ∧ j ≤ b)) :
    i * (i + 1) / 2 + j ≤ a * (a + 1) / 2 + b := by
  rcases h with h | ⟨h1, h2⟩
  · exact le_of_lt ((pidx_lt_pidx hj hb).mpr (Or.inl h))
  · subst h1; omega

/-- Splitting the triangle sum at the pair `(i0, j0)`: the pairs strictly
before it (in compact linear order), the pair itself, and the pairs after. -/
theorem tri_split {n i0 j0 : ℕ} (h0 : j0 ≤ i0) (hn : i0 < n) (F : ℕ → ℕ → ℚ) :
    ∑ a ∈ Finset.range n, ∑ b ∈ Finset.range (a + 1), F a b =
      ((∑ i ∈ Finset.range i0, ∑ j ∈ Finset.range (i + 1), F i j) +
        ∑ j ∈ Finset.range j0, F i0 j) + F i0 j0 +
      ∑ a ∈ Finset.range n, ∑ b ∈ Finset.range (a + 1),
        (if i0 < a ∨ (a = i0 ∧ j0 < b) then F a b else 0) := by
  have hp0 : i0 * (i0 + 1) / 2 + j0 < n * (n + 1) / 2 := by
    have h := (pidx_lt_pidx h0 (Nat.zero_le n)).mpr (Or.inl hn)
    omega
  set p0 := i0 * (i0 + 1) / 2 + j0 with hp0def
  have hsplitN : n * (n + 1) / 2 = (p0 + 1) + (n * (n + 1) / 2 - (p0 + 1)) := by omega
  have key : ∀ G : ℕ → ℚ,
      ∑ P ∈ Finset.range (n * (n + 1) / 2), G P =
        ((∑ P ∈ Finset.range p0, G P) + G p0) +
          ∑ m ∈ Finset.range (n * (n + 1) / 2 - (p0 + 1)), G (p0 + 1 + m) := by
    intro G
    rw [hsplitN, sum_range_block, Finset.sum_range_succ, Nat.add_sub_cancel_left]
  have h1 : ∑ a ∈ Finset.range n, ∑ b ∈ Finset.range (a + 1), F a b =
      ∑ P ∈ Finset.range (n * (n + 1) / 2), F (tri_ic P) (tri_jc P) :=
    (sum_tri n F).symm
  have h2 : ∑ a ∈ Finset.range n, ∑ b ∈ Finset.range (a + 1),
      (if i0 < a ∨ (a = i0 ∧ j0 < b) then F a b else 0) =
      ∑ P ∈ Finset.range (n * (n + 1) / 2),
        (if p0 < P then F (tri_ic P) (tri_jc P) else 0) := by
    rw [← sum_tri n fun a b => if i0 < a ∨ (a = i0 ∧ j0 < b) then F a b else 0]
    refine Finset.sum_congr rfl fun P hP => ?_
    have hle := tri_jc_le_tri_ic P
    have hiff := pidx_lt_pidx h0 hle
    rw [pidx_tri_pair P] at hiff
    exact if_congr (by omega) rfl rfl
  have keyF : ∑ P ∈ Finset.range (n * (n + 1) / 2), F (tri_ic P) (tri_jc P) =
      ((∑ P ∈ Finset.range p0, F (tri_ic P) (tri_jc P)) +
        F (tri_ic p0) (tri_jc p0)) +
        ∑ m ∈ Finset.range (n * (n + 1) / 2 - (p0 + 1)),
          F (tri_ic (p0 + 1 + m)) (tri_jc (p0 + 1 + m)) :=
    key fun P => F (tri_ic P) (tri_jc P)
  have keyI : ∑ P ∈ Finset.range (n * (n + 1) / 2),
      (if p0 < P then F (tri_ic P) (tri_jc P) else 0) =
      ((∑ P ∈ Finset.range p0, (if p0 < P then F (tri_ic P) (tri_jc P) else 0)) +
        (if p0 < p0 then F (tri_ic p0) (tri_jc p0) else 0)) +
        ∑ m ∈ Finset.range (n * (n + 1) / 2 - (p0 + 1)),
          (if p0 < p0 + 1 + m then F (tri_ic (p0 + 1 + m)) (tri_jc (p0 + 1 + m)) else 0) :=
    key fun P => if p0 < P then F (tri_ic P) (tri_jc P) else 0
  rw [h1, h2, keyF, keyI]
  have hpre : ∑ P ∈ Finset.range p0, F (tri_ic P) (tri_jc P) =
      (∑ i ∈ Finset.range i0, ∑ j ∈ Finset.range (i + 1), F i j) +
        ∑ j ∈ Finset.range j0, F i0 j :=
    sum_range_tri h0 F
  have hp0v : F (tri_ic p0) (tri_jc p0) = F i0 j0 := by
    rw [hp0def, tri_ic_pidx h0, tri_jc_pidx h0]
  have hpre0 : ∑ P ∈ Finset.range p0,
      (if p0 < P then F (tri_ic P) (tri_jc P) else 0) = 0 := by
    refine Finset.sum_eq_zero fun P hP => ?_
    rw [if_neg]
    have := Finset.mem_range.mp hP
    omega
  have hmid0 : (if p0 < p0 then F (tri_ic p0) (tri_jc p0) else 0) = 0 := by
    rw [if_neg (lt_irrefl p0)]
  have htail : ∑ m ∈ Finset.range (n * (n + 1) / 2 - (p0 + 1)),
      (if p0 < p0 + 1 + m then F (tri_ic (p0 + 1 + m)) (tri_jc (p0 + 1 + m)) else 0) =
      ∑ m ∈ Finset.range (n * (n + 1) / 2 - (p0 + 1)),
        F (tri_ic (p0 + 1 + m)) (tri_jc (p0 + 1 + m)) := by
    refine Finset.sum_congr rfl fun m hm => ?_
    rw [if_pos (by omega)]
  rw [hpre, hpre0, hmid0, htail, hp0v]
  ring

theorem sum_ite_const {p : Prop} [Decidable p] (s : Finset ℕ) (f : ℕ → ℚ) :
    ∑ x ∈ s, (if p then f x else 0) = if p then ∑ x ∈ s, f x else 0 := by
  by_cases hp : p <;> simp [hp]

theorem deltaJ8 (T : ℕ → ℕ → ℕ → ℕ → ℚ) (dm : Vec) {n a b i0 j0 : ℕ}
    (hb : b ≤ a) (ha : a < n) (hj0 : j0 ≤ i0) (hi0 : i0 < n) :
    sumUpd (CVHFnrs8_ij_s2kl_o0
        (fun t => s8pack T ((a * (a + 1) / 2 + b) * (a * (a + 1) / 2 + b + 1) / 2 + t))
        dm n a b) (i0 * n + j0) =
    (if a = i0 ∧ b = j0 then
        (∑ i ∈ Finset.range a, ((∑ j ∈ Finset.range i,
            T a b i j * (dm (i * n + j) + dm (j * n + i))) + T a b i i * dm (i * n + i))) +
          (∑ j ∈ Finset.range b, T a b a j * (dm (a * n + j) + dm (j * n + a))) +
          T a b a b * (if b < a then dm (a * n + b) + dm (b * n + a) else dm (a * n + a))
      else 0) +
    (if i0 < a ∨ (a = i0 ∧ j0 < b) then
        T a b i0 j0 * (if b < a then dm (a * n + b) + dm (b * n + a) else dm (a * n + a))
      else 0) := by
  have hnlt : ¬ a < b := by omega
  have hread : ∀ i j : ℕ, j ≤ i → (i < a ∨ (i = a ∧ j ≤ b)) →
      s8pack T ((a * (a + 1) / 2 + b) * (a * (a + 1) / 2 + b + 1) / 2 +
        (i * (i + 1) / 2 + j)) = T a b i j :=
    fun i j hj h => s8pack_read4 T hb hj (pidx_le_pidx hj hb h)
  unfold CVHFnrs8_ij_s2kl_o0
  rw [if_neg hnlt]
  simp only [sumUpd_append, sumUpd_cat, sumUpd_cons, sumUpd_nil, add_zero]
  by_cases hab : a * n + b = i0 * n + j0
  · -- the outer pair IS the target cell
    obtain ⟨ha1, hb1⟩ := @cell_inj a b i0 j0 n (by omega) (by omega) hab
    subst ha1
    subst hb1
    rw [if_pos (show a = a ∧ b = b from ⟨rfl, rfl⟩),
      if_neg (show ¬ (a < a ∨ (a = a ∧ b < b)) from by omega), add_zero]
    congr 1
    · congr 1
      · refine Finset.sum_congr rfl fun x hx => ?_
        have hxa : x < a := Finset.mem_range.mp hx
        congr 1
        · refine Finset.sum_congr rfl fun x1 hx1 => ?_
          have hx1x : x1 < x := Finset.mem_range.mp hx1
          rw [if_pos (show a * n + b = a * n + b from rfl),
            if_neg (cell_ne (show x1 < n from by omega) (show b < n from by omega)
              (show ¬ (x = a ∧ x1 = b) from fun hc => by omega)),
            add_zero, hread x x1 (by omega) (Or.inl hxa)]
        · rw [if_pos (show a * n + b = a * n + b from rfl),
            if_neg (cell_ne (show x < n from by omega) (show b < n from by omega)
              (show ¬ (x = a ∧ x = b) from fun hc => by omega)),
            add_zero, hread x x (by omega) (Or.inl hxa)]
      · refine Finset.sum_congr rfl fun x hx => ?_
        have hxb : x < b := Finset.mem_range.mp hx
        rw [if_pos (show a * n + b = a * n + b from rfl),
          if_neg (cell_ne (show x < n from by omega) (show b < n from by omega)
            (show ¬ (a = a ∧ x = b) from fun hc => by omega)),
          add_zero, hread a x (by omega) (Or.inr ⟨rfl, by omega⟩)]
    · rw [if_pos (show a * n + b = a * n + b from rfl),
        hread a b hb (Or.inr ⟨rfl, le_refl b⟩)]
  · -- the outer pair is NOT the target cell
    rw [if_neg (show ¬ (a = i0 ∧ b = j0) from fun hc => hab (by rw [hc.1, hc.2])),
      zero_add]
    simp only [if_neg hab, zero_add]
    have hS1 : ∑ x ∈ Finset.range a,
        ((∑ x1 ∈ Finset.range x,
            (if x * n + x1 = i0 * n + j0 then
              s8pack T ((a * (a + 1) / 2 + b) * (a * (a + 1) / 2 + b + 1) / 2 +
                (x * (x + 1) / 2 + x1)) *
                (if b < a then dm (a * n + b) + dm (b * n + a) else dm (a * n + a))
            else 0)) +
          (if x * n + x = i0 * n + j0 then
              s8pack T ((a * (a + 1) / 2 + b) * (a * (a + 1) / 2 + b + 1) / 2 +
                (x * (x + 1) / 2 + x)) *
                (if b < a then dm (a * n + b) + dm (b * n + a) else dm (a * n + a))
            else 0)) =
        if i0 < a then
          ((if j0 < i0 then
              s8pack T ((a * (a + 1) / 2 + b) * (a * (a + 1) / 2 + b + 1) / 2 +
                (i0 * (i0 + 1) / 2 + j0)) *
                (if b < a then dm (a * n + b) + dm (b * n + a) else dm (a * n + a))
            else 0) +
            (if i0 = j0 then
              s8pack T ((a * (a + 1) / 2 + b) * (a * (a + 1) / 2 + b + 1) / 2 +
                (i0 * (i0 + 1) / 2 + i0)) *
                (if b < a then dm (a * n + b) + dm (b * n + a) else dm (a * n + a))
            else 0))
        else 0 := by
      rw [show ∀ W : ℚ, (if i0 < a then W else 0) =
          ∑ x ∈ Finset.range a, (if x = i0 then W else 0) from
        fun W => (sum_ite_eq_range a i0 fun _ => W).symm]
      refine Finset.sum_congr rfl fun x hx => ?_
      have hxa : x < a := Finset.mem_range.mp hx
      by_cases h1 : x = i0
      · subst h1
        rw [if_pos (show x = x from rfl)]
        congr 1
        · rw [(sum_ite_eq_range x j0 fun x1 =>
              s8pack T ((a * (a + 1) / 2 + b) * (a * (a + 1) / 2 + b + 1) / 2 +
                (x * (x + 1) / 2 + x1)) *
                (if b < a then dm (a * n + b) + dm (b * n + a) else dm (a * n + a))).symm]
          refine Finset.sum_congr rfl fun x1 hx1 => ?_
          exact if_congr (by omega) rfl rfl
        · exact if_congr (by omega) rfl rfl
      · rw [if_neg h1, Finset.sum_eq_zero fun x1 hx1 =>
            if_neg (cell_ne (show x1 < n from by
                have := Finset.mem_range.mp hx1; omega)
              (show j0 < n from by omega)
              (show ¬ (x = i0 ∧ x1 = j0) from fun hc => h1 hc.1)),
          if_neg (cell_ne (show x < n from by omega) (show j0 < n from by omega)
            (show ¬ (x = i0 ∧ x = j0) from fun hc => h1 hc.1)), add_zero]
    have hS2 : ∑ x ∈ Finset.range b,
        (if a * n + x = i0 * n + j0 then
            s8pack T ((a * (a + 1) / 2 + b) * (a * (a + 1) / 2 + b + 1) / 2 +
              (a * (a + 1) / 2 + x)) *
              (if b < a then dm (a * n + b) + dm (b * n + a) else dm (a * n + a))
          else 0) =
        if a = i0 then
          (if j0 < b then
            s8pack T ((a * (a + 1) / 2 + b) * (a * (a + 1) / 2 + b + 1) / 2 +
              (a * (a + 1) / 2 + j0)) *
              (if b < a then dm (a * n + b) + dm (b * n + a) else dm (a * n + a))
          else 0)
        else 0 := by
      by_cases h2 : a = i0
      · rw [if_pos h2,
          (sum_ite_eq_range b j0 fun x =>
            s8pack T ((a * (a + 1) / 2 + b) * (a * (a + 1) / 2 + b + 1) / 2 +
              (a * (a + 1) / 2 + x)) *
              (if b < a then dm (a * n + b) + dm (b * n + a) else dm (a * n + a))).symm]
        refine Finset.sum_congr rfl fun x hx => ?_
        refine if_congr ?_ rfl rfl
        subst h2
        omega
      · rw [if_neg h2, Finset.sum_eq_zero fun x hx =>
          if_neg (cell_ne (show x < n from by
              have := Finset.mem_range.mp hx; omega)
            (show j0 < n from by omega)
            (show ¬ (a = i0 ∧ x = j0) from fun hc => h2 hc.1))]
    rw [hS1, hS2]
    by_cases h1 : i0 < a
    · rw [if_pos h1, if_neg (show ¬ a = i0 from by omega), add_zero,
        if_pos (Or.inl h1)]
      by_cases h3 : j0 < i0
      · rw [if_pos h3, if_neg (show ¬ i0 = j0 from by omega), add_zero,
          hread i0 j0 hj0 (Or.inl h1)]
        ring
      · have h4 : i0 = j0 := by omega
        rw [if_neg h3, if_pos h4, zero_add,
          hread i0 i0 (le_refl i0) (Or.inl h1), h4]
        ring
    · rw [if_neg h1, zero_add]
      by_cases h2 : a = i0
      · rw [if_pos h2]
        by_cases h5 : j0 < b
        · rw [if_pos h5, if_pos (Or.inr ⟨h2, h5⟩),
            hread a j0 (by omega) (Or.inr ⟨rfl, by omega⟩), h2]
          ring
        · rw [if_neg h5, if_neg (show ¬ (i0 < a ∨ (a = i0 ∧ j0 < b)) from by omega)]
          ring
      · rw [if_neg h2, if_neg (show ¬ (i0 < a ∨ (a = i0 ∧ j0 < b)) from by omega)]
        ring

theorem tri_pick {n i0 j0 : ℕ} (h0 : j0 ≤ i0) (hn : i0 < n) (F : ℕ → ℕ → ℚ) :
    ∑ a ∈ Finset.range n, ∑ b ∈ Finset.range (a + 1),
      (if a = i0 ∧ b = j0 then F a b else 0) = F i0 j0 := by
  have hpt : ∀ a ∈ Finset.range n, (∑ b ∈ Finset.range (a + 1),
      (if a = i0 ∧ b = j0 then F a b else 0)) = (if a = i0 then F i0 j0 else 0) := by
    intro a ha
    by_cases h1 : a = i0
    · subst h1
      rw [if_pos rfl]
      trans (∑ b ∈ Finset.range (a + 1), if b = j0 then F a b else 0)
      · exact Finset.sum_congr rfl fun b _ => if_congr (by omega) rfl rfl
      · rw [sum_ite_eq_range (a + 1) j0 (fun b => F a b),
          if_pos (show j0 < a + 1 by omega)]
    · rw [if_neg h1, Finset.sum_eq_zero fun b _ => if_neg (fun hc => h1 hc.1)]
  rw [Finset.sum_congr rfl hpt, sum_ite_eq_range n i0 (fun _ => F i0 j0), if_pos hn]

/-- C1: for every `n > 0`, every dense s8-symmetric tensor `T` stored in the
compact s8 layout, and every density matrix `dm`, the `vj` produced by
`CVHFnrs8_incore_drv` with J-kernel `CVHFnrs8_ij_s2kl` satisfies, for every
pair `i0 ≥ j0` (in range), `vj[i0,j0] = Σ_{k,l} T[i0,j0,k,l]·dm[k,l]` —
exactly, over exact arithmetic. -/
theorem claim_C1 (n : ℕ) (T : ℕ → ℕ → ℕ → ℕ → ℚ) (dm dmk vj0 vk0 : Vec)
    (fvk : Kernel) (hT : S8Symm T) (i0 j0 : ℕ) (hj : j0 ≤ i0) (hi : i0 < n) :
    (CVHFnrs8_incore_drv (s8pack T) dm vj0 dmk vk0 n CVHFnrs8_ij_s2kl fvk).1
        (i0 * n + j0) = denseJ T dm n i0 j0 := by
  have hG : ∀ P ∈ Finset.range (n * (n + 1) / 2),
      sumUpd (s8step (s8pack T) dm n CVHFnrs8_ij_s2kl P) (i0 * n + j0) =
        sumUpd (CVHFnrs8_ij_s2kl_o0
          (fun t => s8pack T ((tri_ic P * (tri_ic P + 1) / 2 + tri_jc P) *
            (tri_ic P * (tri_ic P + 1) / 2 + tri_jc P + 1) / 2 + t))
          dm n (tri_ic P) (tri_jc P)) (i0 * n + j0) := by
    intro P hP
    unfold s8step CVHFnrs8_ij_s2kl
    rw [pidx_tri_pair P]
  have hdrv : (CVHFnrs8_incore_drv (s8pack T) dm vj0 dmk vk0 n CVHFnrs8_ij_s2kl fvk).1
      (i0 * n + j0) =
      ∑ a ∈ Finset.range n, ∑ b ∈ Finset.range (a + 1),
        sumUpd (CVHFnrs8_ij_s2kl_o0
          (fun t => s8pack T ((a * (a + 1) / 2 + b) *
            (a * (a + 1) / 2 + b + 1) / 2 + t)) dm n a b) (i0 * n + j0) := by
    show runLoop (n * (n + 1) / 2) (s8step (s8pack T) dm n CVHFnrs8_ij_s2kl) (fun _ => 0)
        (i0 * n + j0) = _
    rw [runLoop_apply, Finset.sum_congr rfl hG,
      sum_tri n (fun a b => sumUpd (CVHFnrs8_ij_s2kl_o0
        (fun t => s8pack T ((a * (a + 1) / 2 + b) *
          (a * (a + 1) / 2 + b + 1) / 2 + t)) dm n a b) (i0 * n + j0))]
    exact zero_add _
  rw [hdrv]
  trans (∑ a ∈ Finset.range n, ∑ b ∈ Finset.range (a + 1),
    ((if a = i0 ∧ b = j0 then
        (∑ i ∈ Finset.range a, ((∑ j ∈ Finset.range i,
            T a b i j * (dm (i * n + j) + dm (j * n + i))) + T a b i i * dm (i * n + i))) +
          (∑ j ∈ Finset.range b, T a b a j * (dm (a * n + j) + dm (j * n + a))) +
          T a b a b * (if b < a then dm (a * n + b) + dm (b * n + a) else dm (a * n + a))
      else 0) +
      (if i0 < a ∨ (a = i0 ∧ j0 < b) then
        T a b i0 j0 * (if b < a then dm (a * n + b) + dm (b * n + a) else dm (a * n + a))
      else 0)))
  · exact Finset.sum_congr rfl fun a ha => Finset.sum_congr rfl fun b hb =>
      deltaJ8 T dm (Nat.lt_succ_iff.mp (Finset.mem_range.mp hb))
        (Finset.mem_range.mp ha) hj hi
  trans ((∑ a ∈ Finset.range n, ∑ b ∈ Finset.range (a + 1),
      (if a = i0 ∧ b = j0 then
        (∑ i ∈ Finset.range a, ((∑ j ∈ Finset.range i,
            T a b i j * (dm (i * n + j) + dm (j * n + i))) + T a b i i * dm (i * n + i))) +
          (∑ j ∈ Finset.range b, T a b a j * (dm (a * n + j) + dm (j * n + a))) +
          T a b a b * (if b < a then dm (a * n + b) + dm (b * n + a) else dm (a * n + a))
      else 0)) +
    ∑ a ∈ Finset.range n, ∑ b ∈ Finset.range (a + 1),
      (if i0 < a ∨ (a = i0 ∧ j0 < b) then
        T a b i0 j0 * (if b < a then dm (a * n + b) + dm (b * n + a) else dm (a * n + a))
      else 0))
  · rw [← Finset.sum_add_distrib]
    exact Finset.sum_congr rfl fun a _ => Finset.sum_add_distrib
  trans (((∑ i ∈ Finset.range i0, ((∑ j ∈ Finset.range i,
        T i0 j0 i j * (dm (i * n + j) + dm (j * n + i))) +
          T i0 j0 i i * dm (i * n + i))) +
      (∑ j ∈ Finset.range j0, T i0 j0 i0 j * (dm (i0 * n + j) + dm (j * n + i0))) +
      T i0 j0 i0 j0 * (if j0 < i0 then dm (i0 * n + j0) + dm (j0 * n + i0)
        else dm (i0 * n + i0))) +
    ∑ a ∈ Finset.range n, ∑ b ∈ Finset.range (a + 1),
      (if i0 < a ∨ (a = i0 ∧ j0 < b) then
        T i0 j0 a b * (if b < a then dm (a * n + b) + dm (b * n + a) else dm (a * n + a))
      else 0))
  · congr 1
    · exact tri_pick hj hi (fun a b =>
        (∑ i ∈ Finset.range a, ((∑ j ∈ Finset.range i,
            T a b i j * (dm (i * n + j) + dm (j * n + i))) + T a b i i * dm (i * n + i))) +
          (∑ j ∈ Finset.range b, T a b a j * (dm (a * n + j) + dm (j * n + a))) +
          T a b a b * (if b < a then dm (a * n + b) + dm (b * n + a) else dm (a * n + a)))
    · exact Finset.sum_congr rfl fun a _ => Finset.sum_congr rfl fun b _ =>
        if_congr Iff.rfl (by rw [(hT a b i0 j0).2.2]) rfl
  have hdense : denseJ T dm n i0 j0 =
      ∑ a ∈ Finset.range n, ∑ b ∈ Finset.range (a + 1),
        T i0 j0 a b * (if b < a then dm (a * n + b) + dm (b * n + a)
          else dm (a * n + a)) := by
    unfold denseJ
    rw [sq_to_tri n (fun k l => T i0 j0 k l * dm (k * n + l))]
    refine Finset.sum_congr rfl fun a ha => Finset.sum_congr rfl fun b hb => ?_
    by_cases hba : b < a
    · rw [if_pos hba, if_pos hba, (hT i0 j0 b a).2.1]
      ring
    · have hba2 : b = a := by
        have := Finset.mem_range.mp hb; omega
      subst hba2
      rw [if_neg hba, if_neg hba]
  rw [hdense, tri_split hj hi (fun a b =>
    T i0 j0 a b * (if b < a then dm (a * n + b) + dm (b * n + a) else dm (a * n + a)))]
  have hAA : (∑ i ∈ Finset.range i0, ((∑ j ∈ Finset.range i,
        T i0 j0 i j * (dm (i * n + j) + dm (j * n + i))) +
          T i0 j0 i i * dm (i * n + i))) +
      (∑ j ∈ Finset.range j0, T i0 j0 i0 j * (dm (i0 * n + j) + dm (j * n + i0))) +
      T i0 j0 i0 j0 * (if j0 < i0 then dm (i0 * n + j0) + dm (j0 * n + i0)
        else dm (i0 * n + i0)) =
      ((∑ i ∈ Finset.range i0, ∑ j ∈ Finset.range (i + 1),
          T i0 j0 i j * (if j < i then dm (i * n + j) + dm (j * n + i)
            else dm (i * n + i))) +
        ∑ j ∈ Finset.range j0, T i0 j0 i0 j *
          (if j < i0 then dm (i0 * n + j) + dm (j * n + i0) else dm (i0 * n + i0))) +
      T i0 j0 i0 j0 * (if j0 < i0 then dm (i0 * n + j0) + dm (j0 * n + i0)
        else dm (i0 * n + i0)) := by
    congr 1
    congr 1
    · refine Finset.sum_congr rfl fun i hi2 => ?_
      rw [Finset.sum_range_succ]
      congr 1
      · refine Finset.sum_congr rfl fun j hj2 => ?_
        rw [if_pos (Finset.mem_range.mp hj2)]
      · rw [if_neg (lt_irrefl i)]
    · refine Finset.sum_congr rfl fun j hj2 => ?_
      rw [if_pos (show j < i0 by have := Finset.mem_range.mp hj2; omega)]
  rw [hAA]

theorem s8ofVec_symm (g : Vec) : S8Symm (s8ofVec g) := by
  intro i j k l
  unfold s8ofVec
  refine ⟨?_, ?_, ?_⟩
  · rw [max_comm j i, min_comm j i]
  · rw [max_comm l k, min_comm l k]
  · rw [max_comm (max k l * (max k l + 1) / 2 + min k l)
      (max i j * (max i j + 1) / 2 + min i j),
      min_comm (max k l * (max k l + 1) / 2 + min k l)
      (max i j * (max i j + 1) / 2 + min i j)]

/-- Witness for C1: `n = 2`, a concrete symmetric tensor, cell `(1,0)`. -/
theorem claim_C1_witness :
    S8Symm (s8ofVec fun m => (m : ℚ) + 1) ∧
      (CVHFnrs8_incore_drv (s8pack (s8ofVec fun m => (m : ℚ) + 1))
          (fun m => (m : ℚ)) (fun _ => 5) (fun _ => 3) (fun _ => 7) 2
          CVHFnrs8_ij_s2kl CVHFnrs8_jk_s1il).1 (1 * 2 + 0) =
        denseJ (s8ofVec fun m => (m : ℚ) + 1) (fun m => (m : ℚ)) 2 1 0 :=
  ⟨s8ofVec_symm _, claim_C1 2 (s8ofVec fun m => (m : ℚ) + 1) (fun m => (m : ℚ))
    (fun _ => 3) (fun _ => 5) (fun _ => 7) CVHFnrs8_jk_s1il
    (s8ofVec_symm _) 1 0 (by omega) (by omega)⟩

/-! ### Claim C2 machinery: the `jk_s1il` exchange kernel -/

/-- Off-diagonal stored entries: the kernel's redistribution equals the two
orientation sums (the entry standing for both `(ab|cd)` and `(cd|ab)`). -/
theorem phiK_eq_thetaK (T : ℕ → ℕ → ℕ → ℕ → ℚ) (dm : Vec)
    {n i0 l0 a b c d : ℕ} (hb : b ≤ a) (hd : d ≤ c)
    (hne : ¬ (c = a ∧ d = b)) (hsym : T c d a b = T a b c d) :
    PhiK T dm n i0 l0 a b c d =
      ThetaK T dm n i0 l0 a b c d + ThetaK T dm n i0 l0 c d a b := by
  unfold PhiK ThetaK
  by_cases hba : b < a
  · rw [if_pos hba]
    by_cases hdc : d < c
    · rw [if_neg hne, if_pos hdc, if_pos hba, if_pos hdc, if_pos hdc, if_pos hba, hsym]
      ring
    · have hdc2 : d = c := by omega
      subst hdc2
      rw [if_neg hne, if_neg hdc, if_pos hba, if_neg hdc, if_neg (lt_irrefl d), if_pos hba,
        hsym]
      ring
  · have hba2 : b = a := by omega
    subst hba2
    rw [if_neg hba]
    by_cases hdc : d < c
    · rw [if_neg hne, if_pos hdc, if_neg hba, if_pos hdc,
        if_pos hdc, if_neg (by omega : ¬ (b : ℕ) < b), hsym]
      ring
    · have hdc2 : d = c := by omega
      subst hdc2
      rw [if_neg hne, if_neg hdc, if_neg hba, if_neg hdc,
        if_neg (lt_irrefl d), if_neg (by omega : ¬ (b : ℕ) < b), hsym]
      ring

/-- The diagonal stored entry `(a,b,a,b)`: the kernel's contribution equals
the single orientation sum. -/
theorem phiK_diag_eq_thetaK (T : ℕ → ℕ → ℕ → ℕ → ℚ) (dm : Vec)
    {n i0 l0 a b : ℕ} (hb : b ≤ a) :
    PhiK T dm n i0 l0 a b a b = ThetaK T dm n i0 l0 a b a b := by
  unfold PhiK ThetaK
  by_cases hba : b < a
  · rw [if_pos hba, if_pos ⟨rfl, rfl⟩, if_pos hba, if_pos hba]
    ring
  · have hba2 : b = a := by omega
    subst hba2
    rw [if_neg hba, if_pos ⟨rfl, rfl⟩, if_neg hba, if_neg (by omega : ¬ (b : ℕ) < b)]

theorem mul_ind (X y : ℚ) (p : Prop) [Decidable p] :
    X * (if p then y else 0) = if p then X * y else 0 := by
  by_cases hp : p <;> simp [hp]

/-- Flattening one `CVHFnrs8_jk_s1il_o0` call over packed eri: its increment
to any observed cell is the sum of the `PhiK` contributions of all stored
entries of the outer pair's block. -/
theorem deltaK8 (T : ℕ → ℕ → ℕ → ℕ → ℚ) (dm : Vec) {n i0 l0 a b : ℕ} (hb : b ≤ a) :
    sumUpd (CVHFnrs8_jk_s1il_o0
        (fun t => s8pack T ((a * (a + 1) / 2 + b) * (a * (a + 1) / 2 + b + 1) / 2 + t))
        dm n a b) (i0 * n + l0) =
      (∑ Q ∈ Finset.range (a * (a + 1) / 2 + b),
        PhiK T dm n i0 l0 a b (tri_ic Q) (tri_jc Q)) + PhiK T dm n i0 l0 a b a b := by
  have hread : ∀ i j : ℕ, j ≤ i → (i < a ∨ (i = a ∧ j ≤ b)) →
      s8pack T ((a * (a + 1) / 2 + b) * (a * (a + 1) / 2 + b + 1) / 2 +
        (i * (i + 1) / 2 + j)) = T a b i j :=
    fun i j hj h => s8pack_read4 T hb hj (pidx_le_pidx hj hb h)
  rw [sum_range_tri hb (fun c d => PhiK T dm n i0 l0 a b c d)]
  unfold CVHFnrs8_jk_s1il_o0
  by_cases hba : b < a
  · rw [if_pos hba]
    simp only [sumUpd_append, sumUpd_cat, sumUpd_cons, sumUpd_nil, add_zero]
    congr 1
    · congr 1
      · refine Finset.sum_congr rfl fun k hk => ?_
        have hka : k < a := Finset.mem_range.mp hk
        rw [Finset.sum_range_succ]
        congr 1
        · refine Finset.sum_congr rfl fun l hl => ?_
          have hlk : l < k := Finset.mem_range.mp hl
          rw [hread k l (by omega) (Or.inl hka)]
          unfold PhiK
          rw [if_pos hba, if_neg (show ¬ (k = a ∧ l = b) from fun hc => by omega),
            if_pos hlk]
          simp only [kcell, mul_add, mul_ind]
          ring
        · rw [hread k k (le_refl k) (Or.inl hka)]
          unfold PhiK
          rw [if_pos hba, if_neg (show ¬ (k = a ∧ k = b) from fun hc => by omega),
            if_neg (lt_irrefl k)]
          simp only [kcell, mul_add, mul_ind]
          ring
      · refine Finset.sum_congr rfl fun l hl => ?_
        have hlb : l < b := Finset.mem_range.mp hl
        rw [hread a l (by omega) (Or.inr ⟨rfl, by omega⟩)]
        unfold PhiK
        rw [if_pos hba, if_neg (show ¬ (a = a ∧ l = b) from fun hc => by omega),
          if_pos (show l < a by omega)]
        simp only [kcell, mul_add, mul_ind]
        ring
    · rw [hread a b hb (Or.inr ⟨rfl, le_refl b⟩)]
      unfold PhiK
      rw [if_pos hba, if_pos (show a = a ∧ b = b from ⟨rfl, rfl⟩)]
      simp only [kcell, mul_add, mul_ind]
      ring
  · have hba2 : b = a := by omega
    subst hba2
    rw [if_neg hba, if_pos rfl]
    simp only [sumUpd_append, sumUpd_cat, sumUpd_cons, sumUpd_nil, add_zero]
    congr 1
    · congr 1
      · refine Finset.sum_congr rfl fun k hk => ?_
        have hka : k < b := Finset.mem_range.mp hk
        rw [Finset.sum_range_succ]
        congr 1
        · refine Finset.sum_congr rfl fun l hl => ?_
          have hlk : l < k := Finset.mem_range.mp hl
          rw [hread k l (by omega) (Or.inl hka)]
          unfold PhiK
          rw [if_neg hba, if_neg (show ¬ (k = b ∧ l = b) from fun hc => by omega),
            if_pos hlk]
          simp only [kcell, mul_add, mul_ind]
          ring
        · rw [hread k k (le_refl k) (Or.inl hka)]
          unfold PhiK
          rw [if_neg hba, if_neg (show ¬ (k = b ∧ k = b) from fun hc => by omega),
            if_neg (lt_irrefl k)]
          simp only [kcell, mul_add, mul_ind]
      · refine Finset.sum_congr rfl fun l hl => ?_
        have hlb : l < b := Finset.mem_range.mp hl
        rw [hread b l (by omega) (Or.inr ⟨rfl, by omega⟩)]
        unfold PhiK
        rw [if_neg hba, if_neg (show ¬ (b = b ∧ l = b) from fun hc => by omega),
          if_pos (show l < b by omega)]
        simp only [kcell, mul_add, mul_ind]
        ring
    · rw [hread b b (le_refl b) (Or.inr ⟨rfl, le_refl b⟩)]
      unfold PhiK
      rw [if_neg hba, if_pos (show b = b ∧ b = b from ⟨rfl, rfl⟩)]
      simp only [kcell, mul_add, mul_ind]

theorem sq_pick {n i0 l0 : ℕ} (hi0 : i0 < n) (hl0 : l0 < n) (F : ℕ → ℕ → ℚ) :
    ∑ i ∈ Finset.range n, ∑ l ∈ Finset.range n,
      (if i * n + l = i0 * n + l0 then F i l else 0) = F i0 l0 := by
  have hpt : ∀ i ∈ Finset.range n, (∑ l ∈ Finset.range n,
      (if i * n + l = i0 * n + l0 then F i l else 0)) =
      (if i = i0 then F i0 l0 else 0) := by
    intro i _
    by_cases h1 : i = i0
    · subst h1
      rw [if_pos rfl]
      trans (∑ l ∈ Finset.range n, if l = l0 then F i l else 0)
      · exact Finset.sum_congr rfl fun l _ => if_congr (by omega) rfl rfl
      · rw [sum_ite_eq_range n l0 (fun l => F i l), if_pos hl0]
    · rw [if_neg h1, Finset.sum_eq_zero fun l hl =>
        if_neg (cell_ne (Finset.mem_range.mp hl) hl0 (fun hc => h1 hc.1))]
  rw [Finset.sum_congr rfl hpt, sum_ite_eq_range n i0 (fun _ => F i0 l0), if_pos hi0]

/-- Folding a dense 4-index sum onto sorted pairs of sorted pairs, listing
the surviving orientations per diagonal degeneracy. -/
theorem quad_to_tri2 (n : ℕ) (F : ℕ → ℕ → ℕ → ℕ → ℚ) :
    ∑ i ∈ Finset.range n, ∑ j ∈ Finset.range n,
      ∑ k ∈ Finset.range n, ∑ l ∈ Finset.range n, F i j k l =
      ∑ a ∈ Finset.range n, ∑ b ∈ Finset.range (a + 1),
        ∑ c ∈ Finset.range n, ∑ d ∈ Finset.range (c + 1),
        (if b < a then
          (if d < c then F a b c d + F a b d c + F b a c d + F b a d c
           else F a b c c + F b a c c)
        else
          (if d < c then F a a c d + F a a d c else F a a c c)) := by
  rw [sq_to_tri n (fun i j => ∑ k ∈ Finset.range n, ∑ l ∈ Finset.range n, F i j k l)]
  refine Finset.sum_congr rfl fun a _ => Finset.sum_congr rfl fun b _ => ?_
  by_cases hba : b < a
  · rw [if_pos hba, sq_to_tri n (fun k l => F a b k l), sq_to_tri n (fun k l => F b a k l),
      ← Finset.sum_add_distrib]
    refine Finset.sum_congr rfl fun c _ => ?_
    rw [← Finset.sum_add_distrib]
    refine Finset.sum_congr rfl fun d _ => ?_
    rw [if_pos hba]
    by_cases hdc : d < c
    · rw [if_pos hdc, if_pos hdc, if_pos hdc]
      ring
    · rw [if_neg hdc, if_neg hdc, if_neg hdc]
  · rw [if_neg hba, sq_to_tri n (fun k l => F a a k l)]
    refine Finset.sum_congr rfl fun c _ => Finset.sum_congr rfl fun d _ => ?_
    rw [if_neg hba]

/-- The dense exchange matrix as a sum of orientation contributions over
sorted pairs of sorted pairs. -/
theorem denseK_theta (T : ℕ → ℕ → ℕ → ℕ → ℚ) (dm : Vec) {n i0 l0 : ℕ}
    (hT : S8Symm T) (hi0 : i0 < n) (hl0 : l0 < n) :
    denseK T dm n i0 l0 =
      ∑ a ∈ Finset.range n, ∑ b ∈ Finset.range (a + 1),
        ∑ c ∈ Finset.range n, ∑ d ∈ Finset.range (c + 1),
          ThetaK T dm n i0 l0 a b c d := by
  have h1 : denseK T dm n i0 l0 =
      ∑ i ∈ Finset.range n, ∑ j ∈ Finset.range n,
        ∑ k ∈ Finset.range n, ∑ l ∈ Finset.range n,
          kcell n i0 l0 i l (T i j k l * dm (j * n + k)) := by
    symm
    have hswap : ∀ i ∈ Finset.range n,
        (∑ j ∈ Finset.range n, ∑ k ∈ Finset.range n, ∑ l ∈ Finset.range n,
          kcell n i0 l0 i l (T i j k l * dm (j * n + k))) =
        ∑ l ∈ Finset.range n, (if i * n + l = i0 * n + l0 then
          (∑ j ∈ Finset.range n, ∑ k ∈ Finset.range n,
            T i j k l * dm (j * n + k)) else 0) := by
      intro i _
      calc ∑ j ∈ Finset.range n, ∑ k ∈ Finset.range n, ∑ l ∈ Finset.range n,
            kcell n i0 l0 i l (T i j k l * dm (j * n + k))
          = ∑ j ∈ Finset.range n, ∑ l ∈ Finset.range n, ∑ k ∈ Finset.range n,
            kcell n i0 l0 i l (T i j k l * dm (j * n + k)) :=
            Finset.sum_congr rfl fun j _ => Finset.sum_comm
        _ = ∑ l ∈ Finset.range n, ∑ j ∈ Finset.range n, ∑ k ∈ Finset.range n,
            kcell n i0 l0 i l (T i j k l * dm (j * n + k)) := Finset.sum_comm
        _ = _ := by
            refine Finset.sum_congr rfl fun l _ => ?_
            simp only [kcell]
            rw [← sum_ite_const (Finset.range n)
              (fun j => ∑ k ∈ Finset.range n, T i j k l * dm (j * n + k))]
            refine Finset.sum_congr rfl fun j _ => ?_
            rw [← sum_ite_const (Finset.range n) (fun k => T i j k l * dm (j * n + k))]
    rw [Finset.sum_congr rfl hswap,
      sq_pick hi0 hl0 (fun i l => ∑ j ∈ Finset.range n, ∑ k ∈ Finset.range n,
        T i j k l * dm (j * n + k))]
    rfl
  rw [h1, quad_to_tri2 n (fun i j k l => kcell n i0 l0 i l (T i j k l * dm (j * n + k)))]
  refine Finset.sum_congr rfl fun a ha => Finset.sum_congr rfl fun b hb =>
    Finset.sum_congr rfl fun c hc => Finset.sum_congr rfl fun d hd => ?_
  unfold ThetaK
  by_cases hba : b < a
  · by_cases hdc : d < c
    · simp only [if_pos hba, if_pos hdc]
      rw [← (hT a b d c).1, ← (hT a b c d).2.1, ← (hT a b c d).1]
      simp only [kcell, mul_add, mul_ind]
    · have hdc2 : d = c := by
        have := Finset.mem_range.mp hd; omega
      subst hdc2
      simp only [if_pos hba, if_neg hdc]
      rw [← (hT a b d d).1]
      simp only [kcell, mul_add, mul_ind]
  · have hba2 : b = a := by
      have := Finset.mem_range.mp hb; omega
    subst hba2
    by_cases hdc : d < c
    · simp only [if_neg hba, if_pos hdc]
      rw [← (hT b b c d).2.1]
      simp only [kcell, mul_add, mul_ind]
    · have hdc2 : d = c := by
        have := Finset.mem_range.mp hd; omega
      subst hdc2
      simp only [if_neg hba, if_neg hdc]
      simp only [kcell, mul_ind]

/-- Folding the double triangular-pair sum onto stored entries: every
unordered pair of sorted pairs is visited once with its mirror, the
diagonal once. -/
theorem tri2_pair_fold (n : ℕ) (W : ℕ → ℕ → ℕ → ℕ → ℚ) :
    ∑ a ∈ Finset.range n, ∑ b ∈ Finset.range (a + 1),
      ∑ c ∈ Finset.range n, ∑ d ∈ Finset.range (c + 1), W a b c d =
    ∑ a ∈ Finset.range n, ∑ b ∈ Finset.range (a + 1),
      ((∑ Q ∈ Finset.range (a * (a + 1) / 2 + b),
        (W a b (tri_ic Q) (tri_jc Q) + W (tri_ic Q) (tri_jc Q) a b)) +
        W a b a b) := by
  have h1 : ∑ a ∈ Finset.range n, ∑ b ∈ Finset.range (a + 1),
      ∑ c ∈ Finset.range n, ∑ d ∈ Finset.range (c + 1), W a b c d =
      ∑ P ∈ Finset.range (n * (n + 1) / 2), ∑ Q ∈ Finset.range (n * (n + 1) / 2),
        W (tri_ic P) (tri_jc P) (tri_ic Q) (tri_jc Q) := by
    rw [← sum_tri n (fun a b =>
      ∑ c ∈ Finset.range n, ∑ d ∈ Finset.range (c + 1), W a b c d)]
    exact Finset.sum_congr rfl fun P _ =>
      (sum_tri n (fun c d => W (tri_ic P) (tri_jc P) c d)).symm
  rw [h1, sq_to_tri (n * (n + 1) / 2) (fun P Q =>
    W (tri_ic P) (tri_jc P) (tri_ic Q) (tri_jc Q))]
  rw [← sum_tri n (fun a b =>
    (∑ Q ∈ Finset.range (a * (a + 1) / 2 + b),
      (W a b (tri_ic Q) (tri_jc Q) + W (tri_ic Q) (tri_jc Q) a b)) + W a b a b)]
  refine Finset.sum_congr rfl fun P _ => ?_
  rw [pidx_tri_pair P, Finset.sum_range_succ, if_neg (lt_irrefl P)]
  congr 1
  refine Finset.sum_congr rfl fun Q hQ => ?_
  rw [if_pos (Finset.mem_range.mp hQ)]

/-- The `vk` half of the s8 driver is the sum, over stored pairs `(a,b)`
with `b ≤ a < n`, of the kernel call on the `eri` slice at offset
`pidx(a,b)*(pidx(a,b)+1)/2`. -/
theorem drvK8_sum (eri dmj vj0 dm vk0 : Vec) (n : ℕ) (fvj fvk : Kernel) (t : ℕ) :
    (CVHFnrs8_incore_drv eri dmj vj0 dm vk0 n fvj fvk).2 t =
      ∑ a ∈ Finset.range n, ∑ b ∈ Finset.range (a + 1),
        sumUpd (fvk (fun u => eri ((a * (a + 1) / 2 + b) *
          (a * (a + 1) / 2 + b + 1) / 2 + u)) dm n a b) t := by
  have hG : ∀ P ∈ Finset.range (n * (n + 1) / 2),
      sumUpd (s8step eri dm n fvk P) t =
        sumUpd (fvk
          (fun u => eri ((tri_ic P * (tri_ic P + 1) / 2 + tri_jc P) *
            (tri_ic P * (tri_ic P + 1) / 2 + tri_jc P + 1) / 2 + u))
          dm n (tri_ic P) (tri_jc P)) t := by
    intro P hP
    unfold s8step
    rw [pidx_tri_pair P]
  show runLoop (n * (n + 1) / 2) (s8step eri dm n fvk) (fun _ => 0) t = _
  rw [runLoop_apply, Finset.sum_congr rfl hG,
    sum_tri n (fun a b => sumUpd (fvk
      (fun u => eri ((a * (a + 1) / 2 + b) *
        (a * (a + 1) / 2 + b + 1) / 2 + u)) dm n a b) t)]
  exact zero_add _

theorem sumS1il_eq_denseK (n : ℕ) (T : ℕ → ℕ → ℕ → ℕ → ℚ) (dm : Vec)
    (hT : S8Symm T) (i0 l0 : ℕ) (hi0 : i0 < n) (hl0 : l0 < n) :
    (∑ a ∈ Finset.range n, ∑ b ∈ Finset.range (a + 1),
      sumUpd (CVHFnrs8_jk_s1il_o0
        (fun u => s8pack T ((a * (a + 1) / 2 + b) *
          (a * (a + 1) / 2 + b + 1) / 2 + u)) dm n a b) (i0 * n + l0)) =
      denseK T dm n i0 l0 := by
  trans (∑ a ∈ Finset.range n, ∑ b ∈ Finset.range (a + 1),
    ((∑ Q ∈ Finset.range (a * (a + 1) / 2 + b),
      PhiK T dm n i0 l0 a b (tri_ic Q) (tri_jc Q)) + PhiK T dm n i0 l0 a b a b))
  · exact Finset.sum_congr rfl fun a ha => Finset.sum_congr rfl fun b hb =>
      deltaK8 T dm (Nat.lt_succ_iff.mp (Finset.mem_range.mp hb))
  trans (∑ a ∈ Finset.range n, ∑ b ∈ Finset.range (a + 1),
    ((∑ Q ∈ Finset.range (a * (a + 1) / 2 + b),
      (ThetaK T dm n i0 l0 a b (tri_ic Q) (tri_jc Q) +
        ThetaK T dm n i0 l0 (tri_ic Q) (tri_jc Q) a b)) + ThetaK T dm n i0 l0 a b a b))
  · refine Finset.sum_congr rfl fun a ha => Finset.sum_congr rfl fun b hb => ?_
    have hba : b ≤ a := Nat.lt_succ_iff.mp (Finset.mem_range.mp hb)
    congr 1
    · refine Finset.sum_congr rfl fun Q hQ => ?_
      have hdc := tri_jc_le_tri_ic Q
      have hQlt : Q < a * (a + 1) / 2 + b := Finset.mem_range.mp hQ
      have hne : ¬ (tri_ic Q = a ∧ tri_jc Q = b) := by
        intro hc
        have := pidx_tri_pair Q
        rw [hc.1, hc.2] at this
        omega
      exact phiK_eq_thetaK T dm hba hdc hne (hT a b (tri_ic Q) (tri_jc Q)).2.2.symm
    · exact phiK_diag_eq_thetaK T dm hba
  rw [← tri2_pair_fold n (fun a b c d => ThetaK T dm n i0 l0 a b c d),
    ← denseK_theta T dm hT hi0 hl0]

/-- C2: for every `n`, every s8-symmetric dense tensor `T` stored in the
compact s8 layout, and every density matrix `dm`, the `vk` produced by
`CVHFnrs8_incore_drv` with K-kernel `CVHFnrs8_jk_s1il` satisfies, for every
`i0, l0 < n`, `vk[i0,l0] = Σ_{j,k} T[i0,j,k,l0]·dm[j,k]`: each stored
compact entry is redistributed to every symmetry-equivalent ordering
exactly once. -/
theorem claim_C2 (n : ℕ) (T : ℕ → ℕ → ℕ → ℕ → ℚ) (dmj dm vj0 vk0 : Vec)
    (fvj : Kernel) (hT : S8Symm T) (i0 l0 : ℕ) (hi0 : i0 < n) (hl0 : l0 < n) :
    (CVHFnrs8_incore_drv (s8pack T) dmj vj0 dm vk0 n fvj CVHFnrs8_jk_s1il).2
        (i0 * n + l0) = denseK T dm n i0 l0 := by
  rw [drvK8_sum]
  exact sumS1il_eq_denseK n T dm hT i0 l0 hi0 hl0

/-- Witness for C2: `n = 2`, a concrete symmetric tensor, cell `(1,0)`. -/
theorem claim_C2_witness :
    S8Symm (s8ofVec fun m => (m : ℚ) + 2) ∧
      (CVHFnrs8_incore_drv (s8pack (s8ofVec fun m => (m : ℚ) + 2))
          (fun m => (m : ℚ)) (fun _ => 5) (fun m => (m : ℚ) + 1) (fun _ => 7) 2
          CVHFnrs8_ij_s2kl CVHFnrs8_jk_s1il).2 (1 * 2 + 0) =
        denseK (s8ofVec fun m => (m : ℚ) + 2) (fun m => (m : ℚ) + 1) 2 1 0 :=
  ⟨s8ofVec_symm _, claim_C2 2 (s8ofVec fun m => (m : ℚ) + 2) (fun m => (m : ℚ))
    (fun m => (m : ℚ) + 1) (fun _ => 5) (fun _ => 7) CVHFnrs8_ij_s2kl
    (s8ofVec_symm _) 1 0 (by omega) (by omega)⟩

/-! ### Claim C3 machinery: the `jk_s2il` exchange kernel -/

theorem ite_add_zero {p : Prop} [h : Decidable p] (x y : ℚ) :
    (if p then x + y else 0) = (if p then x else 0) + (if p then y else 0) := by
  split <;> simp

/-- At an observed lower-triangle cell, a store to a strictly upper cell
contributes nothing. -/
theorem ind_drop {n i0 l0 : ℕ} (hl0 : l0 ≤ i0) (hi0 : i0 < n) (r c : ℕ)
    (hrc : r < c) (hc : c < n) (v : ℚ) :
    (if r * n + c = i0 * n + l0 then v else 0) = 0 :=
  if_neg (cell_ne hc (by omega) (fun hx => by omega))

/-- Splitting the triangular double sum with outer bound `b+1+M` at row `b`,
grouping the rows above `b` the way `CVHFnrs8_jk_s2il_o0` walks them. -/
theorem tri_block_split (b M : ℕ) (F : ℕ → ℕ → ℚ) :
    (∑ i ∈ Finset.range (b + 1 + M), ∑ j ∈ Finset.range (i + 1), F i j) =
      (((∑ i ∈ Finset.range b, ∑ j ∈ Finset.range (i + 1), F i j) +
        ∑ j ∈ Finset.range b, F b j) + F b b) +
      ∑ m ∈ Finset.range M,
        ((((∑ j ∈ Finset.range b, F (b + 1 + m) j) + F (b + 1 + m) b) +
          ∑ r ∈ Finset.range m, F (b + 1 + m) (b + 1 + r)) + F (b + 1 + m) (b + 1 + m)) := by
  rw [sum_range_block (b + 1) M]
  congr 1
  · rw [Finset.sum_range_succ, Finset.sum_range_succ]
    ring
  · refine Finset.sum_congr rfl fun m hm => ?_
    rw [show b + 1 + m + 1 = b + 1 + (m + 1) from rfl, sum_range_block (b + 1) (m + 1),
      Finset.sum_range_succ, Finset.sum_range_succ]
    ring

/-- The manually two-way-unrolled row loop of the diagonal branch covers each
row exactly once. -/
theorem sum_unroll2 (q r : ℕ) (W : ℕ → ℚ) (hr : r < 2) :
    ((∑ m ∈ Finset.range q, (W (2 * m) + W (2 * m + 1))) +
      ∑ s ∈ Finset.range r, W (2 * q + s)) = ∑ k ∈ Finset.range (2 * q + r), W k := by
  have key : ∀ p : ℕ, ∑ k ∈ Finset.range (2 * p), W k =
      ∑ m ∈ Finset.range p, (W (2 * m) + W (2 * m + 1)) := by
    intro p
    induction p with
    | zero => simp
    | succ p ih =>
        rw [show 2 * (p + 1) = 2 * p + 1 + 1 from by ring, Finset.sum_range_succ,
          Finset.sum_range_succ, ih, Finset.sum_range_succ]
        ring
  rcases (by omega : r = 0 ∨ r = 1) with rfl | rfl
  · simp [key q]
  · rw [Finset.sum_range_one, Finset.sum_range_succ, key q, Nat.add_zero]

theorem sum_split4 (N : ℕ) (f g h k : ℕ → ℚ) :
    ∑ l ∈ Finset.range N, (f l + (g l + (h l + k l))) =
      (∑ l ∈ Finset.range N, (f l + g l)) + ∑ l ∈ Finset.range N, (h l + k l) := by
  rw [← Finset.sum_add_distrib]
  exact Finset.sum_congr rfl fun l _ => by ring

/-- Flattening one `CVHFnrs8_jk_s2il_o0` call over packed eri at an observed
lower-triangle cell: its increment equals the sum of the `PhiK` contributions
of all stored entries of the outer pair's block (the stores the `s2il` kernel
omits relative to `s1il` all target strictly upper cells, and vice versa). -/
theorem deltaK8s2 (T : ℕ → ℕ → ℕ → ℕ → ℚ) (dm : Vec) {n i0 l0 a b : ℕ}
    (hb : b ≤ a) (ha : a < n) (hl0 : l0 ≤ i0) (hi0 : i0 < n) :
    sumUpd (CVHFnrs8_jk_s2il_o0
        (fun t => s8pack T ((a * (a + 1) / 2 + b) * (a * (a + 1) / 2 + b + 1) / 2 + t))
        dm n a b) (i0 * n + l0) =
      (∑ Q ∈ Finset.range (a * (a + 1) / 2 + b),
        PhiK T dm n i0 l0 a b (tri_ic Q) (tri_jc Q)) + PhiK T dm n i0 l0 a b a b := by
  have hread : ∀ i j : ℕ, j ≤ i → (i < a ∨ (i = a ∧ j ≤ b)) →
      s8pack T ((a * (a + 1) / 2 + b) * (a * (a + 1) / 2 + b + 1) / 2 +
        (i * (i + 1) / 2 + j)) = T a b i j :=
    fun i j hj h => s8pack_read4 T hb hj (pidx_le_pidx hj hb h)
  rw [sum_range_tri hb (fun c d => PhiK T dm n i0 l0 a b c d)]
  by_cases hba : b < a
  · obtain ⟨M, rfl⟩ : ∃ M, a = b + 1 + M := ⟨a - (b + 1), by omega⟩
    unfold CVHFnrs8_jk_s2il_o0
    rw [if_pos hba]
    simp only [Nat.add_sub_cancel_left]
    simp only [sumUpd_append, sumUpd_cat, sumUpd_cons, sumUpd_nil, add_zero]
    rw [tri_block_split b M (fun c d => PhiK T dm n i0 l0 (b + 1 + M) b c d)]
    congr 1
    congr 1
    congr 1
    · congr 1
      congr 1
      · refine Finset.sum_congr rfl fun k hk => ?_
        have hkb : k < b := Finset.mem_range.mp hk
        rw [Finset.sum_range_succ]
        congr 1
        · refine Finset.sum_congr rfl fun l hl => ?_
          have hlk : l < k := Finset.mem_range.mp hl
          rw [hread k l (by omega) (Or.inl (by omega))]
          unfold PhiK
          rw [if_pos hba,
            if_neg (show ¬ (k = b + 1 + M ∧ l = b) from fun hc => by omega),
            if_pos hlk]
          simp only [kcell, mul_add, mul_ind, ite_add_zero]
          simp only [ind_drop hl0 hi0 l b (by omega) (by omega),
            ind_drop hl0 hi0 k b (by omega) (by omega),
            ind_drop hl0 hi0 l (b + 1 + M) (by omega) ha,
            ind_drop hl0 hi0 k (b + 1 + M) (by omega) ha]
          ring
        · rw [hread k k (le_refl k) (Or.inl (by omega))]
          unfold PhiK
          rw [if_pos hba,
            if_neg (show ¬ (k = b + 1 + M ∧ k = b) from fun hc => by omega),
            if_neg (lt_irrefl k)]
          simp only [kcell, mul_add, mul_ind, ite_add_zero]
          simp only [ind_drop hl0 hi0 k b (by omega) (by omega),
            ind_drop hl0 hi0 k (b + 1 + M) (by omega) ha]
          ring
      · refine Finset.sum_congr rfl fun l hl => ?_
        have hlb : l < b := Finset.mem_range.mp hl
        rw [hread b l (by omega) (Or.inl (by omega))]
        unfold PhiK
        rw [if_pos hba,
          if_neg (show ¬ (b = b + 1 + M ∧ l = b) from fun hc => by omega),
          if_pos hlb]
        simp only [kcell, mul_add, mul_ind, ite_add_zero]
        simp only [ind_drop hl0 hi0 l b (by omega) (by omega),
          ind_drop hl0 hi0 l (b + 1 + M) (by omega) ha,
          ind_drop hl0 hi0 b (b + 1 + M) (by omega) ha]
        ring
      rw [hread b b (le_refl b) (Or.inl (by omega))]
      unfold PhiK
      rw [if_pos hba,
        if_neg (show ¬ (b = b + 1 + M ∧ b = b) from fun hc => by omega),
        if_neg (lt_irrefl b)]
      simp only [kcell, mul_add, mul_ind, ite_add_zero]
      simp only [ind_drop hl0 hi0 b (b + 1 + M) (by omega) ha]
      ring
    · refine Finset.sum_congr rfl fun m hm => ?_
      have hmM : m < M := Finset.mem_range.mp hm
      rw [show b + 2 + m = b + 1 + m + 1 from by omega]
      congr 1
      congr 1
      congr 1
      · refine Finset.sum_congr rfl fun l hl => ?_
        have hlb : l < b := Finset.mem_range.mp hl
        rw [hread (b + 1 + m) l (by omega) (Or.inl (by omega))]
        unfold PhiK
        rw [if_pos hba,
          if_neg (show ¬ (b + 1 + m = b + 1 + M ∧ l = b) from fun hc => by omega),
          if_pos (show l < b + 1 + m from by omega)]
        simp only [kcell, mul_add, mul_ind, ite_add_zero]
        simp only [ind_drop hl0 hi0 b (b + 1 + m) (by omega) (by omega),
          ind_drop hl0 hi0 l b (by omega) (by omega),
          ind_drop hl0 hi0 l (b + 1 + M) (by omega) ha,
          ind_drop hl0 hi0 (b + 1 + m) (b + 1 + M) (by omega) ha]
        ring
      · rw [hread (b + 1 + m) b (by omega) (Or.inl (by omega))]
        unfold PhiK
        rw [if_pos hba,
          if_neg (show ¬ (b + 1 + m = b + 1 + M ∧ b = b) from fun hc => by omega),
          if_pos (show b < b + 1 + m from by omega)]
        simp only [kcell, mul_add, mul_ind, ite_add_zero]
        simp only [ind_drop hl0 hi0 b (b + 1 + m) (by omega) (by omega),
          ind_drop hl0 hi0 b (b + 1 + M) (by omega) ha,
          ind_drop hl0 hi0 (b + 1 + m) (b + 1 + M) (by omega) ha]
        ring
      · refine Finset.sum_congr rfl fun r hr => ?_
        have hrm : r < m := Finset.mem_range.mp hr
        rw [hread (b + 1 + m) (b + 1 + r) (by omega) (Or.inl (by omega))]
        unfold PhiK
        rw [if_pos hba,
          if_neg (show ¬ (b + 1 + m = b + 1 + M ∧ b + 1 + r = b) from fun hc => by omega),
          if_pos (show b + 1 + r < b + 1 + m from by omega)]
        simp only [kcell, mul_add, mul_ind, ite_add_zero]
        simp only [ind_drop hl0 hi0 b (b + 1 + r) (by omega) (by omega),
          ind_drop hl0 hi0 b (b + 1 + m) (by omega) (by omega),
          ind_drop hl0 hi0 (b + 1 + r) (b + 1 + M) (by omega) ha,
          ind_drop hl0 hi0 (b + 1 + m) (b + 1 + M) (by omega) ha]
        ring
      rw [hread (b + 1 + m) (b + 1 + m) (le_refl _) (Or.inl (by omega))]
      unfold PhiK
      rw [if_pos hba,
        if_neg (show ¬ (b + 1 + m = b + 1 + M ∧ b + 1 + m = b) from fun hc => by omega),
        if_neg (lt_irrefl (b + 1 + m))]
      simp only [kcell, mul_add, mul_ind, ite_add_zero]
      simp only [ind_drop hl0 hi0 b (b + 1 + m) (by omega) (by omega),
        ind_drop hl0 hi0 (b + 1 + m) (b + 1 + M) (by omega) ha]
      ring
    · refine Finset.sum_congr rfl fun l hl => ?_
      have hlb : l < b := Finset.mem_range.mp hl
      rw [hread (b + 1 + M) l (by omega) (Or.inr ⟨rfl, by omega⟩)]
      unfold PhiK
      rw [if_pos hba,
        if_neg (show ¬ (b + 1 + M = b + 1 + M ∧ l = b) from fun hc => by omega),
        if_pos (show l < b + 1 + M from by omega)]
      simp only [kcell, mul_add, mul_ind, ite_add_zero]
      simp only [ind_drop hl0 hi0 b (b + 1 + M) (by omega) ha,
        ind_drop hl0 hi0 l b (by omega) (by omega),
        ind_drop hl0 hi0 l (b + 1 + M) (by omega) ha]
      ring
    rw [hread (b + 1 + M) b hb (Or.inr ⟨rfl, le_refl b⟩)]
    unfold PhiK
    rw [if_pos hba, if_pos (show b + 1 + M = b + 1 + M ∧ b = b from ⟨rfl, rfl⟩)]
    simp only [kcell, mul_add, mul_ind, ite_add_zero]
    simp only [ind_drop hl0 hi0 b (b + 1 + M) (by omega) ha]
    ring
  · have hba2 : b = a := by omega
    subst hba2
    unfold CVHFnrs8_jk_s2il_o0
    rw [if_neg (lt_irrefl b), if_pos rfl]
    simp only [sumUpd_append, sumUpd_cat, sumUpd_cons, sumUpd_nil, add_zero]
    congr 1
    congr 1
    · trans (∑ k ∈ Finset.range b,
        ((∑ l ∈ Finset.range k,
            ((if b * n + l = i0 * n + l0 then
                s8pack T ((b * (b + 1) / 2 + b) * (b * (b + 1) / 2 + b + 1) / 2 +
                  (k * (k + 1) / 2 + l)) * dm (b * n + k) else 0) +
              (if b * n + k = i0 * n + l0 then
                s8pack T ((b * (b + 1) / 2 + b) * (b * (b + 1) / 2 + b + 1) / 2 +
                  (k * (k + 1) / 2 + l)) * dm (b * n + l) else 0))) +
          (if b * n + k = i0 * n + l0 then
            s8pack T ((b * (b + 1) / 2 + b) * (b * (b + 1) / 2 + b + 1) / 2 +
              (k * (k + 1) / 2 + k)) * dm (b * n + k) else 0)))
      · have hkey := sum_unroll2 (b / 2) (b % 2)
          (fun k => ((∑ l ∈ Finset.range k,
              ((if b * n + l = i0 * n + l0 then
                  s8pack T ((b * (b + 1) / 2 + b) * (b * (b + 1) / 2 + b + 1) / 2 +
                    (k * (k + 1) / 2 + l)) * dm (b * n + k) else 0) +
                (if b * n + k = i0 * n + l0 then
                  s8pack T ((b * (b + 1) / 2 + b) * (b * (b + 1) / 2 + b + 1) / 2 +
                    (k * (k + 1) / 2 + l)) * dm (b * n + l) else 0))) +
            (if b * n + k = i0 * n + l0 then
              s8pack T ((b * (b + 1) / 2 + b) * (b * (b + 1) / 2 + b + 1) / 2 +
                (k * (k + 1) / 2 + k)) * dm (b * n + k) else 0))) (by omega)
        rw [show 2 * (b / 2) + b % 2 = b from by omega] at hkey
        rw [← hkey]
        congr 1
        refine Finset.sum_congr rfl fun m hm => ?_
        simp only []
        rw [show 2 * m + 2 = 2 * m + 1 + 1 from rfl]
        rw [Finset.sum_range_succ]
        rw [sum_split4]
        ring
      · refine Finset.sum_congr rfl fun k hk => ?_
        have hkb : k < b := Finset.mem_range.mp hk
        rw [Finset.sum_range_succ]
        congr 1
        · refine Finset.sum_congr rfl fun l hl => ?_
          have hlk : l < k := Finset.mem_range.mp hl
          rw [hread k l (by omega) (Or.inl hkb)]
          unfold PhiK
          rw [if_neg (lt_irrefl b),
            if_neg (show ¬ (k = b ∧ l = b) from fun hc => by omega),
            if_pos hlk]
          simp only [kcell, mul_add, mul_ind, ite_add_zero]
          simp only [ind_drop hl0 hi0 l b (by omega) ha,
            ind_drop hl0 hi0 k b (by omega) ha]
          ring
        · rw [hread k k (le_refl k) (Or.inl hkb)]
          unfold PhiK
          rw [if_neg (lt_irrefl b),
            if_neg (show ¬ (k = b ∧ k = b) from fun hc => by omega),
            if_neg (lt_irrefl k)]
          simp only [kcell, mul_add, mul_ind, ite_add_zero]
          simp only [ind_drop hl0 hi0 k b (by omega) ha]
          ring
    · refine Finset.sum_congr rfl fun l hl => ?_
      have hlb : l < b := Finset.mem_range.mp hl
      rw [hread b l (by omega) (Or.inr ⟨rfl, by omega⟩)]
      unfold PhiK
      rw [if_neg (lt_irrefl b),
        if_neg (show ¬ (b = b ∧ l = b) from fun hc => by omega),
        if_pos hlb]
      simp only [kcell, mul_add, mul_ind, ite_add_zero]
      simp only [ind_drop hl0 hi0 l b (by omega) ha]
      ring
    rw [hread b b (le_refl b) (Or.inr ⟨rfl, le_refl b⟩)]
    unfold PhiK
    rw [if_neg (lt_irrefl b), if_pos (show b = b ∧ b = b from ⟨rfl, rfl⟩)]
    simp only [kcell, mul_add, mul_ind, ite_add_zero]

/-- For an s8-symmetric tensor and a symmetric density matrix the dense
exchange matrix is symmetric. -/
theorem denseK_symm (T : ℕ → ℕ → ℕ → ℕ → ℚ) (dm : Vec) (n : ℕ) (hT : S8Symm T)
    (hdm : HermDM dm n)
    (i0 l0 : ℕ) : denseK T dm n i0 l0 = denseK T dm n l0 i0 := by
  unfold denseK
  rw [Finset.sum_comm]
  refine Finset.sum_congr rfl fun k hk => Finset.sum_congr rfl fun j hj => ?_
  rw [hdm j k (Finset.mem_range.mp hj) (Finset.mem_range.mp hk)]
  congr 1
  calc T i0 j k l0 = T k l0 i0 j := (hT i0 j k l0).2.2
    _ = T l0 k i0 j := (hT k l0 i0 j).1
    _ = T l0 k j i0 := (hT l0 k i0 j).2.1

/-- C3 (amended): for every `n`, s8-symmetric `T`, and symmetric (real
Hermitian) `dm`, the `vk` produced by `CVHFnrs8_incore_drv` with K-kernel
`CVHFnrs8_jk_s2il` agrees with the dense exchange matrix on the lower
triangle (`vk[i0,l0] = Σ_{j,k} T[i0,j,k,l0]·dm[j,k]` for `l0 ≤ i0 < n`),
and that dense matrix is symmetric, so the caller can recover the upper
triangle by mirroring; the kernel itself leaves `vk`'s strictly upper
triangle unaccumulated rather than symmetric. -/
theorem claim_C3 (n : ℕ) (T : ℕ → ℕ → ℕ → ℕ → ℚ) (dmj dm vj0 vk0 : Vec)
    (fvj : Kernel) (hT : S8Symm T) (hdm : HermDM dm n)
    (i0 l0 : ℕ) (hl0 : l0 ≤ i0) (hi0 : i0 < n) :
    (CVHFnrs8_incore_drv (s8pack T) dmj vj0 dm vk0 n fvj CVHFnrs8_jk_s2il).2
        (i0 * n + l0) = denseK T dm n i0 l0 ∧
      denseK T dm n i0 l0 = denseK T dm n l0 i0 := by
  refine ⟨?_, denseK_symm T dm n hT hdm i0 l0⟩
  rw [drvK8_sum]
  trans (∑ a ∈ Finset.range n, ∑ b ∈ Finset.range (a + 1),
    sumUpd (CVHFnrs8_jk_s1il_o0
      (fun u => s8pack T ((a * (a + 1) / 2 + b) *
        (a * (a + 1) / 2 + b + 1) / 2 + u)) dm n a b) (i0 * n + l0))
  · refine Finset.sum_congr rfl fun a ha => Finset.sum_congr rfl fun b hb => ?_
    have hba : b ≤ a := Nat.lt_succ_iff.mp (Finset.mem_range.mp hb)
    have han : a < n := Finset.mem_range.mp ha
    unfold CVHFnrs8_jk_s2il
    rw [deltaK8s2 T dm hba han hl0 hi0, ← deltaK8 T dm hba]
  exact sumS1il_eq_denseK n T dm hT i0 l0 hi0 (by omega)

set_option maxHeartbeats 4000000 in
/-- C3 counterexample: with `n = 2`, the s8-symmetric tensor built from
`g m = m + 1`, and the constant (hence Hermitian) density matrix `1`, the
`vk` half returned by the s8 driver with K-kernel `CVHFnrs8_jk_s2il` has
`vk[0,1] = 0` but `vk[1,0] = 14`: the accumulated output is not symmetric,
because the kernel never touches the strictly upper triangle. -/
theorem claim_C3_counterexample :
    S8Symm (s8ofVec fun m => (m : ℚ) + 1) ∧ HermDM (fun _ => 1) 2 ∧
      (CVHFnrs8_incore_drv (s8pack (s8ofVec fun m => (m : ℚ) + 1)) (fun _ => 1) (fun _ => 0)
          (fun _ => 1) (fun _ => 0) 2 CVHFnrs8_ij_s2kl CVHFnrs8_jk_s2il).2 (0 * 2 + 1) ≠
        (CVHFnrs8_incore_drv (s8pack (s8ofVec fun m => (m : ℚ) + 1)) (fun _ => 1) (fun _ => 0)
          (fun _ => 1) (fun _ => 0) 2 CVHFnrs8_ij_s2kl CVHFnrs8_jk_s2il).2 (1 * 2 + 0) := by
  refine ⟨s8ofVec_symm _, fun i j _ _ => rfl, ?_⟩
  have h1 : (CVHFnrs8_incore_drv (s8pack (s8ofVec fun m => (m : ℚ) + 1)) (fun _ => 1)
      (fun _ => 0) (fun _ => 1) (fun _ => 0) 2 CVHFnrs8_ij_s2kl CVHFnrs8_jk_s2il).2
      (0 * 2 + 1) = 0 := by
    show runLoop 3 _ _ _ = 0
    rw [runLoop_apply]
    simp only [Finset.sum_range_succ, Finset.sum_range_zero, s8step, CVHFnrs8_jk_s2il,
      show tri_ic 0 = 0 from rfl, show tri_jc 0 = 0 from rfl,
      show tri_ic 1 = 1 from rfl, show tri_jc 1 = 0 from rfl,
      show tri_ic 2 = 1 from rfl, show tri_jc 2 = 1 from rfl]
    norm_num [CVHFnrs8_jk_s2il_o0, cat, sumUpd, s8pack, s8ofVec,
      show tri_ic 0 = 0 from rfl, show tri_jc 0 = 0 from rfl,
      show tri_ic 1 = 1 from rfl, show tri_jc 1 = 0 from rfl,
      show tri_ic 2 = 1 from rfl, show tri_jc 2 = 1 from rfl,
      show tri_ic 3 = 2 from rfl, show tri_jc 3 = 0 from rfl,
      show tri_ic 4 = 2 from rfl, show tri_jc 4 = 1 from rfl,
      show tri_ic 5 = 2 from rfl, show tri_jc 5 = 2 from rfl]
  have h2 : (CVHFnrs8_incore_drv (s8pack (s8ofVec fun m => (m : ℚ) + 1)) (fun _ => 1)
      (fun _ => 0) (fun _ => 1) (fun _ => 0) 2 CVHFnrs8_ij_s2kl CVHFnrs8_jk_s2il).2
      (1 * 2 + 0) = 14 := by
    show runLoop 3 _ _ _ = 14
    rw [runLoop_apply]
    simp only [Finset.sum_range_succ, Finset.sum_range_zero, s8step, CVHFnrs8_jk_s2il,
      show tri_ic 0 = 0 from rfl, show tri_jc 0 = 0 from rfl,
      show tri_ic 1 = 1 from rfl, show tri_jc 1 = 0 from rfl,
      show tri_ic 2 = 1 from rfl, show tri_jc 2 = 1 from rfl]
    norm_num [CVHFnrs8_jk_s2il_o0, cat, sumUpd, s8pack, s8ofVec,
      show tri_ic 0 = 0 from rfl, show tri_jc 0 = 0 from rfl,
      show tri_ic 1 = 1 from rfl, show tri_jc 1 = 0 from rfl,
      show tri_ic 2 = 1 from rfl, show tri_jc 2 = 1 from rfl,
      show tri_ic 3 = 2 from rfl, show tri_jc 3 = 0 from rfl,
      show tri_ic 4 = 2 from rfl, show tri_jc 4 = 1 from rfl,
      show tri_ic 5 = 2 from rfl, show tri_jc 5 = 2 from rfl]
  rw [h1, h2]
  norm_num

/-- Witness for the amended C3: `n = 2`, a concrete symmetric tensor, the
constant Hermitian `dm`, cell `(1,0)`. -/
theorem claim_C3_witness :
    S8Symm (s8ofVec fun m => (m : ℚ) + 5) ∧ HermDM (fun _ => 1) 2 ∧
      (0 : ℕ) ≤ 1 ∧ (1 : ℕ) < 2 ∧
      ((CVHFnrs8_incore_drv (s8pack (s8ofVec fun m => (m : ℚ) + 5)) (fun m => (m : ℚ))
          (fun _ => 3) (fun _ => 1) (fun _ => 4) 2 CVHFnrs8_ij_s2kl CVHFnrs8_jk_s2il).2
          (1 * 2 + 0) = denseK (s8ofVec fun m => (m : ℚ) + 5) (fun _ => 1) 2 1 0 ∧
        denseK (s8ofVec fun m => (m : ℚ) + 5) (fun _ => 1) 2 1 0 =
          denseK (s8ofVec fun m => (m : ℚ) + 5) (fun _ => 1) 2 0 1) :=
  ⟨s8ofVec_symm _, fun i j _ _ => rfl, by omega, by omega,
    claim_C3 2 (s8ofVec fun m => (m : ℚ) + 5) (fun m => (m : ℚ)) (fun _ => 1)
      (fun _ => 3) (fun _ => 4) CVHFnrs8_ij_s2kl (s8ofVec_symm _)
      (fun i j _ _ => rfl) 1 0 (by omega) (by omega)⟩

/-! ### Claim C9 machinery: the dense `s1` storage and the identity matrix -/

theorem sq_lt {n k l : ℕ} (hk : k < n) (hl : l < n) : k * n + l < n * n := by
  calc k * n + l < k * n + n := by omega
    _ = (k + 1) * n := by ring
    _ ≤ n * n := Nat.mul_le_mul_right n hk

theorem s1pack_read (T : ℕ → ℕ → ℕ → ℕ → ℚ) {n i j k l : ℕ}
    (hi : i < n) (hj : j < n) (hk : k < n) (hl : l < n) :
    s1pack T n ((i * n + j) * n * n + (k * n + l)) = T i j k l := by
  have hn : 0 < n := by omega
  have hkl : k * n + l < n * n := sq_lt hk hl
  have hjkl : j * (n * n) + (k * n + l) < n * n * n := by
    calc j * (n * n) + (k * n + l) < j * (n * n) + n * n := by omega
      _ = (j + 1) * (n * n) := by ring
      _ ≤ n * (n * n) := Nat.mul_le_mul_right (n * n) hj
      _ = n * n * n := by ring
  have h1 : ((i * n + j) * n * n + (k * n + l)) / (n * n * n) = i := by
    rw [show (i * n + j) * n * n + (k * n + l) =
        n * n * n * i + (j * (n * n) + (k * n + l)) from by ring,
      Nat.mul_add_div (by positivity), Nat.div_eq_of_lt hjkl, Nat.add_zero]
  have h2 : ((i * n + j) * n * n + (k * n + l)) / (n * n) % n = j := by
    rw [show (i * n + j) * n * n + (k * n + l) =
        n * n * (i * n + j) + (k * n + l) from by ring,
      Nat.mul_add_div (by positivity), Nat.div_eq_of_lt hkl, Nat.add_zero,
      show i * n + j = n * i + j from by ring,
      Nat.mul_add_mod, Nat.mod_eq_of_lt hj]
  have h3 : ((i * n + j) * n * n + (k * n + l)) / n % n = k := by
    rw [show (i * n + j) * n * n + (k * n + l) =
        n * ((i * n + j) * n + k) + l from by ring,
      Nat.mul_add_div hn, Nat.div_eq_of_lt hl, Nat.add_zero,
      show (i * n + j) * n + k = n * (i * n + j) + k from by ring,
      Nat.mul_add_mod, Nat.mod_eq_of_lt hk]
  have h4 : ((i * n + j) * n * n + (k * n + l)) % n = l := by
    rw [show (i * n + j) * n * n + (k * n + l) =
        n * ((i * n + j) * n + k) + l from by ring,
      Nat.mul_add_mod, Nat.mod_eq_of_lt hl]
  unfold s1pack
  rw [h1, h2, h3, h4]

theorem idMat_cell {n k l : ℕ} (hk : k < n) (hl : l < n) :
    idMat n (k * n + l) = if k = l then 1 else 0 := by
  unfold idMat
  have hd : (k * n + l) / n = k := by
    rw [show k * n + l = n * k + l from by ring, Nat.mul_add_div (by omega),
      Nat.div_eq_of_lt hl, Nat.add_zero]
  have hm : (k * n + l) % n = l := by
    rw [show k * n + l = n * k + l from by ring, Nat.mul_add_mod, Nat.mod_eq_of_lt hl]
  rw [hd, hm]

/-- Decoding a flat double-loop range into its rows and columns. -/
theorem sum_range_sq (a b : ℕ) (f : ℕ → ℚ) :
    ∑ t ∈ Finset.range (a * b), f t =
      ∑ x ∈ Finset.range a, ∑ y ∈ Finset.range b, f (x * b + y) := by
  induction a with
  | zero => simp
  | succ a ih =>
      rw [show (a + 1) * b = a * b + b from by ring, sum_range_block, ih,
        Finset.sum_range_succ]

/-- C9: with `dm` the identity matrix and a dense s1-stored tensor, the `vj`
produced by `CVHFnrs1_incore_drv` with J-kernel `CVHFnrs1_kl_s1ij` satisfies
`vj[i0,j0] = Σ_k T[i0,j0,k,k]` for all `i0, j0 < n`: each outer cell gets the
full `ddot` of its eri block against `dm`, which traces out the diagonal. -/
theorem claim_C9 (n : ℕ) (T : ℕ → ℕ → ℕ → ℕ → ℚ) (dmk vj0 vk0 : Vec) (fvk : Kernel)
    (i0 j0 : ℕ) (hi0 : i0 < n) (hj0 : j0 < n) :
    (CVHFnrs1_incore_drv (s1pack T n) (idMat n) vj0 dmk vk0 n CVHFnrs1_kl_s1ij fvk).1
        (i0 * n + j0) =
      ∑ k ∈ Finset.range n, T i0 j0 k k := by
  have hn : 0 < n := by omega
  show runLoop (n * n) (s1step (s1pack T n) (idMat n) n CVHFnrs1_kl_s1ij)
      (fun _ => 0) (i0 * n + j0) = _
  rw [runLoop_apply]
  trans (∑ ij ∈ Finset.range (n * n),
    sumUpd (s1step (s1pack T n) (idMat n) n CVHFnrs1_kl_s1ij ij) (i0 * n + j0))
  · exact zero_add _
  trans (∑ ij ∈ Finset.range (n * n),
    (if ij = i0 * n + j0 then
      ddot (n * n) (fun t => s1pack T n (ij * n * n + t)) (idMat n) else 0))
  · refine Finset.sum_congr rfl fun ij hij => ?_
    unfold s1step CVHFnrs1_kl_s1ij
    rw [sumUpd_cons, sumUpd_nil, add_zero,
      Nat.add_sub_cancel' (Nat.div_mul_le_self ij n)]
  rw [sum_ite_eq_range (n * n) (i0 * n + j0)
      (fun ij => ddot (n * n) (fun t => s1pack T n (ij * n * n + t)) (idMat n)),
    if_pos (sq_lt hi0 hj0)]
  unfold ddot
  rw [sum_range_sq n n]
  trans (∑ k ∈ Finset.range n, ∑ l ∈ Finset.range n,
    (if k = l then T i0 j0 k l else 0))
  · refine Finset.sum_congr rfl fun k hk => Finset.sum_congr rfl fun l hl => ?_
    have hkn : k < n := Finset.mem_range.mp hk
    have hln : l < n := Finset.mem_range.mp hl
    simp only []
    rw [s1pack_read T hi0 hj0 hkn hln, idMat_cell hkn hln, mul_ind, mul_one]
  refine Finset.sum_congr rfl fun k hk => ?_
  rw [Finset.sum_ite_eq, if_pos hk]

/-- Witness for C9: `n = 3`, a concrete tensor, cell `(2,1)`. -/
theorem claim_C9_witness :
    (2 : ℕ) < 3 ∧ (1 : ℕ) < 3 ∧
      (CVHFnrs1_incore_drv (s1pack (fun i j k l => (i : ℚ) + 2 * j + 3 * k + 5 * l) 3)
          (idMat 3) (fun _ => 7) (fun m => (m : ℚ)) (fun _ => 2) 3
          CVHFnrs1_kl_s1ij CVHFnrs2ij_jk_s1il).1 (2 * 3 + 1) =
        ∑ k ∈ Finset.range 3, ((2 : ℚ) + 2 * 1 + 3 * k + 5 * k) :=
  ⟨by omega, by omega,
    claim_C9 3 (fun i j k l => (i : ℚ) + 2 * j + 3 * k + 5 * l) (fun m => (m : ℚ))
      (fun _ => 7) (fun _ => 2) CVHFnrs2ij_jk_s1il 2 1 (by omega) (by omega)⟩

end VHF
